import Mathlib

/-!
Shallow embedding of the taxonomy-backed meal classification core of the
reflux-tg-bot repository (app/services/taxonomy_index.py and
app/services/meal_taxonomy.py), together with theorems checking the
natural-language specification against it.

Modelling conventions:
* Python `dict`s are embedded as insertion-ordered association lists.
* Python unbounded `int`s are `Int`; RapidFuzz scores are `Int` (0-100).
* Python `float` confidences/scores are embedded as `Rat`; `round` is
  round-half-to-even (`roundHalfEvenDiv`), matching CPython `round` on the
  values reachable here (confidences scaled by 100 and scores 0..100
  scaled by 0.85 land exactly on the corresponding binary64 results).
* `str.strip()` is `pyStrip`, `str.lower()` is `pyLower` (list-of-chars
  implementations that the kernel can evaluate).
* Database rows, sessions and audit events are embedded as explicit state
  (`DB`); a `with get_session()` block is atomic (commit on success,
  rollback on exception), as in app/db/session.py.
-/

namespace Reflux

/-- First value bound to a key in an insertion-ordered association list
(Python `dict.get`). -/
def alookup {α : Type} (l : List (String × α)) (k : String) : Option α :=
  match l with
  | [] => none
  | (k', v) :: rest => if k' = k then some v else alookup rest k

/-- Python `str.strip()`: drop leading and trailing whitespace.
(`String.trim` is extensionally the same but does not reduce in the
kernel, so the embedding works on the character list.) -/
def pyStrip (s : String) : String :=
  ⟨((s.data.dropWhile Char.isWhitespace).reverse.dropWhile Char.isWhitespace).reverse⟩

/-- Python `str.lower()` (ASCII case mapping; the keys handled by the
claims are ASCII). -/
def pyLower (s : String) : String :=
  ⟨s.data.map Char.toLower⟩

/-- Round-half-to-even of the fraction `n / d` (`d > 0`), in pure integer
arithmetic: Python `round` on the exact values reachable here. -/
def roundHalfEvenDiv (n d : Int) : Int :=
  let f : Int := Int.fdiv n d
  let r : Int := n - f * d
  if 2 * r < d then f
  else if d < 2 * r then f + 1
  else if f % 2 = 0 then f else f + 1

/-- `int(round(100.0 * x))` for a confidence/score `x`: numerator-level
multiplication keeps the computation kernel-evaluable. -/
def pyRound100 (x : Rat) : Int :=
  roundHalfEvenDiv (100 * x.num) (x.den : Int)

/-- `max(0, int(round(score * 0.85)))` for an integer retrieval score:
`round(score * 17/20)` in integer arithmetic, clamped at 0. -/
def scoreDecay (score : Int) : Int :=
  max 0 (roundHalfEvenDiv (17 * score) 20)

/-- `_clamp01` from meal_taxonomy.py. A `none` argument stands for a missing
value or one that cannot be coerced to a finite float (the `except` / NaN
branches). -/
def clamp01 (x : Option Rat) (default : Rat := 0) : Rat :=
  match x with
  | none => default
  | some v => max 0 (min 1 v)

/-! ## Taxonomy definition source (categories.json payloads) -/

/-- One category payload. `name` is the `{"name": {lang: label}}` object
(`none` models a missing or non-dict `name`); `parents` is the `"parents"`
list (`none` models a missing or non-list value). Only string labels and
string parent ids are modelled; non-string JSON values are dropped by the
source's `isinstance` checks exactly where these options are `none`. -/
structure TaxPayload where
  name : Option (List (String × String))
  parents : Option (List String)
deriving DecidableEq, Repr

/-- The whole categories document: category id → payload, insertion ordered. -/
abbrev Taxonomy := List (String × TaxPayload)

/-- `self._tax.get(category_id)`. -/
def taxGet (tax : Taxonomy) (cid : String) : Option TaxPayload :=
  alookup tax cid

/-- `_iter_parents` from taxonomy_index.py: the `parents` list filtered to
non-empty strings; `[]` when the payload is absent or has no list. -/
def iterParents (payload : Option TaxPayload) : List String :=
  match payload with
  | none => []
  | some pl =>
    match pl.parents with
    | none => []
    | some ps => ps.filter (fun p => p ≠ "")

/-- First non-blank value of a `name` mapping (`for v in name.values()`). -/
def firstNonBlank (vals : List String) : String :=
  match vals with
  | [] => ""
  | v :: rest => if pyStrip v ≠ "" then pyStrip v else firstNonBlank rest

/-- `_label_for` from taxonomy_index.py. `preferLang = none` or `some ""`
are both falsy in `if prefer_lang:`. -/
def labelFor (payload : Option TaxPayload) (preferLang : Option String) : String :=
  match payload with
  | none => ""
  | some pl =>
    match pl.name with
    | none => ""
    | some name =>
      let preferred : Option String :=
        match preferLang with
        | none => none
        | some lang =>
          if lang = "" then none
          else
            match alookup name lang with
            | some v => if pyStrip v ≠ "" then some (pyStrip v) else none
            | none => none
      match preferred with
      | some v => v
      | none =>
        match alookup name "en" with
        | some en => if pyStrip en ≠ "" then pyStrip en else firstNonBlank (name.map Prod.snd)
        | none => firstNonBlank (name.map Prod.snd)

/-- `TaxonomyIndex.get_label`: `_label_for(...) or category_id`. -/
def get_label (tax : Taxonomy) (cid : String) (preferLang : Option String) : String :=
  let l := labelFor (taxGet tax cid) preferLang
  if l = "" then cid else l

/-- `TaxonomyIndex.get_parent_ids`. -/
def get_parent_ids (tax : Taxonomy) (cid : String) : List String :=
  iterParents (taxGet tax cid)

/-! ## Level computation (`_compute_levels`) -/

/-- Keys of the taxonomy (`set(tax.keys())`, kept in document order). -/
def nodeIds (tax : Taxonomy) : List String :=
  tax.map Prod.fst

/-- Parents of `n` that are themselves taxonomy keys (`if p in nodes`). -/
def inTaxParents (tax : Taxonomy) (n : String) : List String :=
  (iterParents (taxGet tax n)).filter (fun p => (nodeIds tax).contains p)

/-- Children of `u` under the in-taxonomy parent relation (`child_map`). -/
def childrenOf (tax : Taxonomy) (u : String) : List String :=
  (nodeIds tax).filter (fun n => (inTaxParents tax n).contains u)

/-- Partial level assignment during BFS. -/
abbrev Levels := List (String × Nat)

def levelsGet (l : Levels) (k : String) : Option Nat := alookup l k

/-- Set `k ↦ v`, overwriting in place (Python dict assignment). -/
def levelsSet (l : Levels) (k : String) (v : Nat) : Levels :=
  match l with
  | [] => [(k, v)]
  | (k', v') :: rest => if k' = k then (k, v) :: rest else (k', v') :: levelsSet rest k v

/-- Relax all children of a popped node of level `base`: assign
`base + 1` when unassigned or strictly smaller, enqueueing on update. -/
def relaxChildren (base : Nat) (children : List String)
    (st : Levels × List String) : Levels × List String :=
  children.foldl
    (fun st v =>
      let cand := base + 1
      match levelsGet st.1 v with
      | some prev =>
        if cand < prev then (levelsSet st.1 v cand, st.2 ++ [v]) else st
      | none => (levelsSet st.1 v cand, st.2 ++ [v]))
    st

/-- The BFS worklist loop (`while q: u = q.popleft(); ...`), driven by
fuel; `computeLevels` supplies fuel ample for its own worklist. -/
def bfsLoop (tax : Taxonomy) : Nat → Levels → List String → Levels
  | 0, level, _ => level
  | _ + 1, level, [] => level
  | fuel + 1, level, u :: q =>
    let base := (levelsGet level u).getD 0
    let st := relaxChildren base (childrenOf tax u) (level, q)
    bfsLoop tax fuel st.1 st.2

/-- `_compute_levels`: multi-source BFS from all roots (nodes with no
in-taxonomy parent), then level 0 for every unreached node. -/
def computeLevels (tax : Taxonomy) : Levels :=
  let roots := (nodeIds tax).filter (fun n => inTaxParents tax n = [])
  let init : Levels := roots.map (fun r => (r, 0))
  let fuel := (tax.length + 1) * (tax.length + 1) * (tax.length + 1)
  let final := bfsLoop tax fuel init roots
  (nodeIds tax).map (fun n => (n, (levelsGet final n).getD 0))

/-- `TaxonomyIndex.get_level`: `self._levels.get(category_id, 0)`. -/
def get_level (tax : Taxonomy) (cid : String) : Int :=
  ((levelsGet (computeLevels tax) cid).getD 0 : Nat)

/-! ## Candidates and level-aware diversification -/

/-- `TaxonomyCandidate` from taxonomy_index.py. -/
structure TaxonomyCandidate where
  category_id : String
  label : String
  score : Int
  level : Int
  parent_ids : List String
deriving DecidableEq, Repr

/-- Stable insertion into an already-sorted accumulator: `x` goes after
every element not strictly greater under `le`. -/
def insertS {α : Type} (le : α → α → Bool) (x : α) : List α → List α
  | [] => [x]
  | y :: ys => if le x y && ! le y x then x :: y :: ys else y :: insertS le x ys

/-- Stable sort by a total boolean preorder `le`, embedding Python's
stable `sorted` / `list.sort`. -/
def stableSortBy {α : Type} (le : α → α → Bool) (l : List α) : List α :=
  l.foldl (fun acc x => insertS le x acc) []

/-- `(a₁, a₂) ≥ (b₁, b₂)` lexicographically, for descending sorts. -/
def lexGE (a b : Int × Int) : Bool :=
  b.1 < a.1 || (a.1 = b.1 && b.2 ≤ a.2)

/-- `sorted(candidates, key=lambda c: (c.score, -c.level), reverse=True)`. -/
def sortScoreNegLevel (l : List TaxonomyCandidate) : List TaxonomyCandidate :=
  stableSortBy (fun a b => lexGE (a.score, -a.level) (b.score, -b.level)) l

/-- `sorted(best.values(), key=lambda c: (c.score, c.level), reverse=True)`. -/
def sortScoreLevel (l : List TaxonomyCandidate) : List TaxonomyCandidate :=
  stableSortBy (fun a b => lexGE (a.score, a.level) (b.score, b.level)) l

/-- Counter lookup with default 0 (`picked_per_level.get(lvl, 0)`). -/
def cntGet (l : List (Int × Nat)) (k : Int) : Nat :=
  match l with
  | [] => 0
  | (k', v) :: rest => if k' = k then v else cntGet rest k

/-- Counter update, overwriting in place. -/
def cntSet (l : List (Int × Nat)) (k : Int) (v : Nat) : List (Int × Nat) :=
  match l with
  | [] => [(k, v)]
  | (k', v') :: rest => if k' = k then (k, v) :: rest else (k', v') :: cntSet rest k v

/-- `by_level` pools: level → remaining candidates, insertion ordered. -/
abbrev Pools := List (Int × List TaxonomyCandidate)

def poolGet (p : Pools) (k : Int) : List TaxonomyCandidate :=
  match p with
  | [] => []
  | (k', v) :: rest => if k' = k then v else poolGet rest k

def poolSet (p : Pools) (k : Int) (v : List TaxonomyCandidate) : Pools :=
  match p with
  | [] => [(k, v)]
  | (k', v') :: rest => if k' = k then (k, v) :: rest else (k', v') :: poolSet rest k v

/-- `by_level.setdefault(int(c.level), []).append(c)` over `sorted_all`,
skipping forced ids. -/
def buildPools (forcedIds : List String) (sortedAll : List TaxonomyCandidate) : Pools :=
  sortedAll.foldl
    (fun acc c =>
      if forcedIds.contains c.category_id then acc
      else poolSet acc c.level (poolGet acc c.level ++ [c]))
    []

/-- State of the round-robin selection loop. -/
structure DivState where
  picked : List TaxonomyCandidate
  perLevel : List (Int × Nat)
  pools : Pools
  progressed : Bool
deriving Repr

/-- One level visit inside a pass: `break` at the limit (modelled by every
later iteration re-testing the monotone limit condition), `continue` past
a capped or empty level, otherwise pop the level's best candidate. -/
def divStep (limit maxPerLevel : Int) (st : DivState) (lvl : Int) : DivState :=
  if limit ≤ (st.picked.length : Int) then st
  else if maxPerLevel ≤ (cntGet st.perLevel lvl : Int) then st
  else
    match poolGet st.pools lvl with
    | [] => st
    | c :: rest =>
      { picked := st.picked ++ [c]
        perLevel := cntSet st.perLevel lvl (cntGet st.perLevel lvl + 1)
        pools := poolSet st.pools lvl rest
        progressed := true }

/-- One `for lvl in levels:` pass. -/
def divPass (limit maxPerLevel : Int) (levels : List Int) (st : DivState) : DivState :=
  levels.foldl (divStep limit maxPerLevel) st

/-- `while progressed and len(picked) < limit:` driven by fuel;
`diversify_by_level` supplies fuel ample for its own pools. -/
def divLoop (limit maxPerLevel : Int) (levels : List Int) : Nat → DivState → DivState
  | 0, st => st
  | fuel + 1, st =>
    if st.progressed && (st.picked.length : Int) < limit then
      divLoop limit maxPerLevel levels fuel
        (divPass limit maxPerLevel levels { st with progressed := false })
    else st

/-- `forced = [sorted_all[0]]` when `always_include_best` (the list is
non-empty at the call site), else `[]`. -/
def divForced (aib : Bool) (sortedAll : List TaxonomyCandidate) : List TaxonomyCandidate :=
  if aib then sortedAll.take 1 else []

/-- The per-level pools: `by_level` built over `sorted_all` minus the
forced ids, each level then sorted by score descending (stable). -/
def divPools (forcedIds : List String) (sortedAll : List TaxonomyCandidate) : Pools :=
  (buildPools forcedIds sortedAll).map
    (fun e => (e.1, stableSortBy (fun a b => b.score ≤ a.score) e.2))

/-- `levels = sorted(by_level.keys(), reverse=not prefer_broader)`. -/
def divLevels (pb : Bool) (pools : Pools) : List Int :=
  if pb then stableSortBy (fun a b => a ≤ b) (pools.map Prod.fst)
  else stableSortBy (fun a b => b ≤ a) (pools.map Prod.fst)

/-- `TaxonomyIndex.diversify_by_level`. -/
def diversify_by_level (candidates : List TaxonomyCandidate) (limit : Int)
    (max_per_level : Int := 6) (prefer_broader : Bool := true)
    (always_include_best : Bool := true) : List TaxonomyCandidate :=
  if limit ≤ 0 ∨ candidates = [] then []
  else
    let sortedAll := sortScoreNegLevel candidates
    let forced := divForced always_include_best sortedAll
    let pools := divPools (forced.map (·.category_id)) sortedAll
    let levels := divLevels prefer_broader pools
    let st0 : DivState := { picked := forced, perLevel := [], pools := pools, progressed := true }
    let fin := divLoop limit max_per_level levels (candidates.length + 2) st0
    fin.picked.take limit.toNat

/-! ## Ancestor expansion (link_item_top3, candidate-set widening) -/

/-- Overwrite-in-place association update (Python dict assignment keeps the
key's position). -/
def aset {α : Type} (l : List (String × α)) (k : String) (v : α) : List (String × α) :=
  match l with
  | [] => [(k, v)]
  | (k', v') :: rest => if k' = k then (k, v) :: rest else (k', v') :: aset rest k v

/-- The ancestor candidate created for a parent id `pid` reached from a
candidate of score `childScore`:
`TaxonomyCandidate(pid, get_label(pid), max(0, round(score*0.85)), get_level(pid), parents)`. -/
def mkParentCand (tax : Taxonomy) (lang : String) (pid : String) (childScore : Int) :
    TaxonomyCandidate where
  category_id := pid
  label := get_label tax pid (some lang)
  score := scoreDecay childScore
  level := get_level tax pid
  parent_ids := get_parent_ids tax pid

/-- Sum of `f` over the elements of `l` not in `seen`; the walk's
termination measure is an instance of this. -/
def psum (f : String → Nat) (seen l : List String) : Nat :=
  ((l.filter (fun n => decide (n ∉ seen))).map f).sum

theorem psum_cons_le (f : String → Nat) (p : String) (seen l : List String) :
    psum f (p :: seen) l ≤ psum f seen l := by
  induction l with
  | nil => simp [psum]
  | cons n l ih =>
    by_cases hs : n ∈ seen
    · have hps : n ∈ p :: seen := List.mem_cons_of_mem _ hs
      simpa [psum, List.filter_cons, hs, hps] using ih
    · by_cases hp : n = p
      · subst hp
        have hps : n ∈ n :: seen := List.mem_cons_self _ _
        simp only [psum, List.filter_cons, hs, hps] at *
        simp at *
        exact le_trans ih (Nat.le_add_left _ _)
      · have hps : n ∉ p :: seen := by
          intro h
          rcases List.mem_cons.mp h with h | h
          · exact hp h
          · exact hs h
        simp only [psum, List.filter_cons] at *
        simp [hs, hps] at *
        omega

theorem psum_cons_add_le (f : String → Nat) (p : String) (seen l : List String)
    (hp : p ∉ seen) (hl : p ∈ l) :
    psum f (p :: seen) l + f p ≤ psum f seen l := by
  induction l with
  | nil => cases hl
  | cons n l ih =>
    by_cases hnp : n = p
    · subst hnp
      have hps : n ∈ n :: seen := List.mem_cons_self _ _
      have hmono := psum_cons_le f n seen l
      simp only [psum, List.filter_cons] at *
      simp [hp, hps] at *
      omega
    · have hl' : p ∈ l := by
        rcases List.mem_cons.mp hl with h | h
        · exact absurd h (fun hh => hnp hh.symm)
        · exact h
      by_cases hs : n ∈ seen
      · have hps : n ∈ p :: seen := List.mem_cons_of_mem _ hs
        simpa [psum, List.filter_cons, hs, hps] using ih hl'
      · have hps : n ∉ p :: seen := by
          intro h
          rcases List.mem_cons.mp h with h | h
          · exact hnp h
          · exact hs h
        have := ih hl'
        simp only [psum, List.filter_cons] at *
        simp [hs, hps] at *
        omega

/-- Total length of in-document parent lists over keys not yet visited. -/
def parentSum (tax : Taxonomy) (seen : List String) : Nat :=
  psum (fun n => (get_parent_ids tax n).length) seen (nodeIds tax)

theorem alookup_eq_none_of_not_mem {α : Type} (l : List (String × α)) (k : String)
    (h : k ∉ l.map Prod.fst) : alookup l k = none := by
  induction l with
  | nil => rfl
  | cons e rest ih =>
    obtain ⟨k', v⟩ := e
    simp only [List.map_cons, List.mem_cons] at h
    push_neg at h
    have hne : k' ≠ k := fun hh => h.1 hh.symm
    simpa [alookup, hne] using ih h.2

theorem parentSum_cons_le (tax : Taxonomy) (p : String) (seen : List String) :
    parentSum tax (p :: seen) ≤ parentSum tax seen :=
  psum_cons_le _ p seen _

theorem parentSum_cons_add_le (tax : Taxonomy) (pid : String) (seen : List String)
    (hp : pid ∉ seen) :
    parentSum tax (pid :: seen) + (get_parent_ids tax pid).length ≤ parentSum tax seen := by
  by_cases hin : pid ∈ nodeIds tax
  · exact psum_cons_add_le _ pid seen _ hp hin
  · have : taxGet tax pid = none := alookup_eq_none_of_not_mem tax pid hin
    have hlen : (get_parent_ids tax pid).length = 0 := by
      simp [get_parent_ids, this, iterParents]
    rw [hlen, Nat.add_zero]
    exact parentSum_cons_le tax pid seen

/-- `if pid not in expanded: expanded[pid] = TaxonomyCandidate(...)` —
add the decayed parent candidate unless the id is already a key. -/
def walkAdd (tax : Taxonomy) (lang : String) (cScore : Int) (pid : String)
    (expanded : List (String × TaxonomyCandidate)) :
    List (String × TaxonomyCandidate) :=
  if (alookup expanded pid).isSome then expanded
  else expanded ++ [(pid, mkParentCand tax lang pid cScore)]

/-- The per-candidate parent-chain walk of link_item_top3:
`while stack: pid = stack.pop(); ...`. Python's list used as a stack (pop
from the right, extend on the right) is modelled with the top of the stack
at the head, so parent lists are pushed reversed. -/
def expandWalk (tax : Taxonomy) (lang : String) (cScore : Int) :
    List String → List String → List (String × TaxonomyCandidate) →
    List (String × TaxonomyCandidate)
  | _, [], expanded => expanded
  | seen, pid :: rest, expanded =>
    if h1 : pid ∈ seen then expandWalk tax lang cScore seen rest expanded
    else if pid = "" then expandWalk tax lang cScore (pid :: seen) rest expanded
    else
      expandWalk tax lang cScore (pid :: seen)
        ((get_parent_ids tax pid).reverse ++ rest)
        (walkAdd tax lang cScore pid expanded)
termination_by seen stack _ => parentSum tax seen + stack.length
decreasing_by
  · simp only [List.length_cons]
    omega
  · have := parentSum_cons_le tax pid seen
    simp only [List.length_cons]
    omega
  · have := parentSum_cons_add_le tax pid seen h1
    simp only [List.length_append, List.length_reverse, List.length_cons]
    omega

/-- `expanded = {c.category_id: c for c in candidates}` (insertion order,
later duplicates overwrite in place). -/
def candInit (candidates : List TaxonomyCandidate) : List (String × TaxonomyCandidate) :=
  candidates.foldl (fun m c => aset m c.category_id c) []

/-- The expansion phase of link_item_top3 (lines 257-284): start from the
diversified candidates, then for every candidate walk its full parent
chain, adding each ancestor not already present with a decayed score. -/
def expandCandidates (tax : Taxonomy) (lang : String)
    (candidates : List TaxonomyCandidate) : List (String × TaxonomyCandidate) :=
  candidates.foldl
    (fun m c =>
      expandWalk tax lang c.score [] (get_parent_ids tax c.category_id).reverse m)
    (candInit candidates)

/-- `sorted(expanded.values(), key=lambda cc: (cc.score, -cc.level), reverse=True)`. -/
def expandedListOf (tax : Taxonomy) (lang : String)
    (candidates : List TaxonomyCandidate) : List TaxonomyCandidate :=
  sortScoreNegLevel ((expandCandidates tax lang candidates).map Prod.snd)

/-! ## Extraction and linking data model (meal_taxonomy.py) -/

/-- `ExtractedItem`. `item_type` is one of `dish|ingredient|drink|product`;
extraction drops anything else before constructing the value. -/
structure ExtractedItem where
  item_type : String
  text_span : String
  normalized : String
  normalized_en : Option String
  modifiers : List String
  confidence : Rat
deriving DecidableEq, Repr

/-- `LinkedCategory`. -/
structure LinkedCategory where
  category_id : String
  label : String
  score : Rat
  level : Int
deriving DecidableEq, Repr

/-- `ItemLinkResult`. -/
structure ItemLinkResult where
  item : ExtractedItem
  top3 : List LinkedCategory
  abstain : Bool
  abstain_reason : Option String
deriving DecidableEq, Repr

def PROMPT_VERSION : String := "v4"

/-- The deduplication key of extract_items:
`(it.item_type, it.normalized.strip().lower())`. -/
def dedupKey (it : ExtractedItem) : String × String :=
  (it.item_type, pyLower (pyStrip it.normalized))

def dlookup (d : List ((String × String) × ExtractedItem)) (k : String × String) :
    Option ExtractedItem :=
  match d with
  | [] => none
  | (k', v) :: rest => if k' = k then some v else dlookup rest k

def dset (d : List ((String × String) × ExtractedItem)) (k : String × String)
    (v : ExtractedItem) : List ((String × String) × ExtractedItem) :=
  match d with
  | [] => [(k, v)]
  | (k', v') :: rest => if k' = k then (k, v) :: rest else (k', v') :: dset rest k v

/-- One iteration of the dedup loop: `prev = dedup.get(key)`;
`if prev is None or it.confidence > prev.confidence: dedup[key] = it`. -/
def dedupStep (d : List ((String × String) × ExtractedItem)) (it : ExtractedItem) :
    List ((String × String) × ExtractedItem) :=
  match dlookup d (dedupKey it) with
  | none => d ++ [(dedupKey it, it)]
  | some prev => if prev.confidence < it.confidence then dset d (dedupKey it) it else d

/-- The deduplication pass of extract_items (lines 189-197): one entry per
`(item_type, normalized.strip().lower())` key, keeping the entry with the
strictly higher confidence (first wins on ties), in first-insertion order
(`list(dedup.values())`). -/
def dedupItems (items : List ExtractedItem) : List ExtractedItem :=
  (items.foldl dedupStep []).map Prod.snd

/-! ## Rerank response handling (link_item_top3, lines 389-425) -/

/-- One element of the `top_k` array. `notDict` models a non-dict entry;
`entry oid oscore` models a dict whose `id` is the given string (`none`
for a missing or `None` id) and whose `score` is the given number (`none`
for a missing or non-numeric score, handled by `_clamp01`'s default). -/
inductive TopEntry
  | notDict
  | entry (oid : Option String) (oscore : Option Rat)
deriving DecidableEq, Repr

/-- The parsed rerank response. `top_k = none` models a non-list `top_k`
value (a missing key defaults to `some []`); `abstain` is the result of
`bool(obj.get("abstain", False))`; `abstain_reason = none` models a
missing or non-string reason. -/
structure RerankResponse where
  top_k : Option (List TopEntry)
  abstain : Bool
  abstain_reason : Option String
deriving DecidableEq, Repr

/-- The ids of the candidates packed and presented to the inference
service (`packed = [_candidate_pack(c, ...) for c in candidates]`). -/
def presentedIds (candidates : List TaxonomyCandidate) : List String :=
  candidates.map (·.category_id)

/-- One iteration of the `top3` loop: skip a non-dict entry, skip a blank
id (`str(it2.get("id") or "").strip()`), otherwise append the
`LinkedCategory`. -/
def top3Step (tax : Taxonomy) (lang : String) (acc : List LinkedCategory)
    (e : TopEntry) : List LinkedCategory :=
  match e with
  | .notDict => acc
  | .entry oid oscore =>
    let cid := pyStrip (oid.getD "")
    if cid = "" then acc
    else
      acc ++ [{ category_id := cid
                label := get_label tax cid (some lang)
                score := clamp01 oscore 0
                level := get_level tax cid }]

/-- The `top3` construction loop (lines 399-415): walk the first three
`top_k` entries, skip non-dicts and entries with a blank id, and build a
`LinkedCategory` from every remaining entry. No check against the
presented candidate set is performed. -/
def buildTop3 (tax : Taxonomy) (lang : String) (rawTop : Option (List TopEntry)) :
    List LinkedCategory :=
  match rawTop with
  | none => []
  | some entries => (entries.take 3).foldl (top3Step tax lang) []

/-- `abstain_reason if isinstance(abstain_reason, str) and abstain_reason.strip() else None`
(the original, unstripped string is kept). -/
def parseAbstainReason (r : Option String) : Option String :=
  match r with
  | some s => if pyStrip s ≠ "" then some s else none
  | none => none

/-- The `ItemLinkResult` built by link_item_top3 from a well-formed (JSON
object) rerank response. -/
def linkResultOfResponse (tax : Taxonomy) (lang : String) (item : ExtractedItem)
    (resp : RerankResponse) : ItemLinkResult where
  item := item
  top3 := buildTop3 tax lang resp.top_k
  abstain := resp.abstain
  abstain_reason := parseAbstainReason resp.abstain_reason

/-! ## Persistence and the pipeline orchestrator -/

/-- A `meal_items` row. `modifiers`, `normalized_en`, `abstain` and
`abstain_reason` are the fields serialized into `modifiers_json`;
`created_at` (wall-clock time) is not modelled. -/
structure MealItemRow where
  id : Nat
  meal_id : String
  user_id : String
  item_type : String
  text_span : String
  normalized : String
  modifiers : List String
  normalized_en : Option String
  abstain : Bool
  abstain_reason : Option String
  confidence : Int
  llm_model : String
  prompt_version : String
deriving DecidableEq, Repr

/-- A `meal_item_categories` row. `label` and `level` are the fields
serialized into `meta_json`. -/
structure MealItemCategoryRow where
  meal_item_id : Nat
  category_id : String
  rank : Nat
  score : Int
  label : String
  level : Int
deriving DecidableEq, Repr

/-- An `event_audit` row; the payload is modelled by the meal id it
carries. -/
structure EventAuditRow where
  user_id : String
  event_type : String
  meal_id : String
deriving DecidableEq, Repr

/-- The persistent store visible to the pipeline. `nextId` models the
autoincrement primary key of `meal_items` (`session.flush()` assigns it). -/
structure DB where
  mealItems : List MealItemRow
  mealItemCategories : List MealItemCategoryRow
  audits : List EventAuditRow
  nextId : Nat
deriving DecidableEq, Repr

/-- `_audit`: append one audit event in its own session. -/
def auditEvent (db : DB) (user_id event_type meal_id : String) : DB :=
  { db with audits := db.audits ++ [⟨user_id, event_type, meal_id⟩] }

/-- Insert one `MealItem` plus its up-to-3 `MealItemCategory` rows
(the body of `for r in results:` in persist_results). -/
def persistOne (user_id meal_id extract_model rerank_model : String)
    (db : DB) (r : ItemLinkResult) : DB :=
  let mi : MealItemRow :=
    { id := db.nextId
      meal_id := meal_id
      user_id := user_id
      item_type := r.item.item_type
      text_span := r.item.text_span
      normalized := r.item.normalized
      modifiers := r.item.modifiers
      normalized_en := r.item.normalized_en
      abstain := r.abstain
      abstain_reason := r.abstain_reason
      confidence := pyRound100 r.item.confidence
      llm_model := extract_model ++ "|" ++ rerank_model
      prompt_version := PROMPT_VERSION }
  let cats := (r.top3.take 3).enum.map
    (fun ic =>
      ({ meal_item_id := mi.id
         category_id := ic.2.category_id
         rank := ic.1 + 1
         score := pyRound100 ic.2.score
         label := ic.2.label
         level := ic.2.level } : MealItemCategoryRow))
  { db with
    mealItems := db.mealItems ++ [mi]
    mealItemCategories := db.mealItemCategories ++ cats
    nextId := db.nextId + 1 }

/-- `persist_results`: within one session, optionally delete every prior
`MealItem` (and its category links) for this meal id, then insert the new
rows. -/
def persist_results (user_id meal_id : String) (results : List ItemLinkResult)
    (extract_model rerank_model : String) (replace_existing : Bool)
    (db : DB) : DB :=
  let db1 :=
    if replace_existing then
      let oldIds := (db.mealItems.filter (fun m => decide (m.meal_id = meal_id))).map (·.id)
      { db with
        mealItemCategories :=
          db.mealItemCategories.filter (fun c => decide (c.meal_item_id ∉ oldIds))
        mealItems := db.mealItems.filter (fun m => decide (m.meal_id ≠ meal_id)) }
    else db
  results.foldl (persistOne user_id meal_id extract_model rerank_model) db1

/-- The outcomes of the two inference-service calls and of the persistence
session, as seen by process_meal. `extractResult` is the outcome of
extract_items (an `OpenAIClientError` or the deduplicated items plus model
name); `linkResult` is the outcome of link_item_top3 per item;
`persistOk = false` models a persistence session that raises (the
`with get_session()` block rolls back, leaving the store unchanged). -/
structure PipelineEnv where
  extractResult : Except String (List ExtractedItem × String)
  linkResult : ExtractedItem → Except String (ItemLinkResult × String)
  persistOk : Bool

/-- The per-item linking loop of process_meal: sequential, aborting at the
first failure, tracking the last rerank model name used. -/
def linkAll (link : ExtractedItem → Except String (ItemLinkResult × String))
    (rerank_model_default : String) (items : List ExtractedItem) :
    Except String (List ItemLinkResult × String) :=
  items.foldlM
    (fun (acc : List ItemLinkResult × String) it => do
      let (r, m) ← link it
      pure (acc.1 ++ [r], m))
    ([], rerank_model_default)

/-- `process_meal`: full pipeline with its guard clauses and its
catch-all `except Exception` handler. Audit writes are modelled as always
succeeding. -/
def process_meal (env : PipelineEnv) (user_id meal_id notes_text : String)
    (openai_api_key : Option String) (openai_model_rerank : String)
    (db : DB) : List ItemLinkResult × DB :=
  if openai_api_key.getD "" = "" then ([], db)
  else if pyStrip notes_text = "" then ([], db)
  else
    match env.extractResult with
    | .error _ => ([], auditEvent db user_id "meal_taxonomy_failed" meal_id)
    | .ok (items, extract_model) =>
      let db1 := auditEvent db user_id "meal_taxonomy_extracted" meal_id
      match linkAll env.linkResult openai_model_rerank items with
      | .error _ => ([], auditEvent db1 user_id "meal_taxonomy_failed" meal_id)
      | .ok (results, rerank_model_used) =>
        if env.persistOk then
          let db2 := persist_results user_id meal_id results extract_model
            rerank_model_used true db1
          (results, auditEvent db2 user_id "meal_taxonomy_linked" meal_id)
        else ([], auditEvent db1 user_id "meal_taxonomy_failed" meal_id)

/-! ## Concrete fixtures used by the theorems -/

/-- A chain `root → A → B`. -/
def chainTax : Taxonomy :=
  [("root", ⟨some [("en", "Root")], some []⟩),
   ("A", ⟨some [("en", "A")], some ["root"]⟩),
   ("B", ⟨some [("en", "B")], some ["A"]⟩)]

/-- `x` has parents at levels 1 (`p1`) and 2 (`p2`). -/
def diamondTax : Taxonomy :=
  [("r0", ⟨none, none⟩),
   ("p1", ⟨none, some ["r0"]⟩),
   ("p2", ⟨none, some ["p1"]⟩),
   ("x", ⟨none, some ["p1", "p2"]⟩)]

/-- A root plus an isolated cyclic component `c1 ↔ c2` never reached from
any root. -/
def cycleTax : Taxonomy :=
  [("r", ⟨none, none⟩),
   ("c1", ⟨none, some ["c2"]⟩),
   ("c2", ⟨none, some ["c1"]⟩)]

/-- Labels fixture: a node with `en`/`ru` labels and a node with only a
`fr` label. -/
def teaTax : Taxonomy :=
  [("en:tea", ⟨some [("en", "Tea"), ("ru", "Чай")], some []⟩),
   ("en:the", ⟨some [("fr", "Thé")], some []⟩)]

/-! ## C3 — level computation -/

theorem levelsGet_levelsSet (l : Levels) (k : String) (v : Nat) (k' : String) :
    levelsGet (levelsSet l k v) k' = if k = k' then some v else levelsGet l k' := by
  induction l with
  | nil =>
    by_cases h : k = k'
    · simp [levelsSet, levelsGet, alookup, h]
    · simp [levelsSet, levelsGet, alookup, h]
  | cons e rest ih =>
    obtain ⟨ek, ev⟩ := e
    by_cases he : ek = k
    · subst he
      by_cases h : ek = k'
      · simp [levelsSet, levelsGet, alookup, h]
      · simp [levelsSet, levelsGet, alookup, h]
    · by_cases h : ek = k'
      · subst h
        have : ¬ k = ek := fun hh => he hh.symm
        simp [levelsSet, levelsGet, alookup, he, this]
      · simp only [levelsSet, if_neg he]
        simp only [levelsGet, alookup, h] at ih ⊢
        simp [ih]

/-- Relaxation never dislodges a node already assigned level 0: the
candidate `base + 1` is never below 0. -/
theorem relaxChildren_keeps_zero (base : Nat) (children : List String) (r : String) :
    ∀ st : Levels × List String, levelsGet st.1 r = some 0 →
      levelsGet (relaxChildren base children st).1 r = some 0 := by
  induction children with
  | nil => intro st h; exact h
  | cons v rest ih =>
    intro st h
    refine ih _ ?_
    cases hl : levelsGet st.1 v with
    | some prev =>
      by_cases hlt : base + 1 < prev
      · simp only [relaxChildren, List.foldl_cons, hl, if_pos hlt]
        show levelsGet (levelsSet st.1 v (base + 1)) r = some 0
        rw [levelsGet_levelsSet]
        by_cases hv : v = r
        · subst hv
          rw [hl] at h
          cases h
          omega
        · rw [if_neg hv]
          exact h
      · simpa only [relaxChildren, List.foldl_cons, hl, if_neg hlt] using h
    | none =>
      simp only [relaxChildren, List.foldl_cons, hl]
      show levelsGet (levelsSet st.1 v (base + 1)) r = some 0
      rw [levelsGet_levelsSet]
      by_cases hv : v = r
      · subst hv
        rw [hl] at h
        cases h
      · rw [if_neg hv]
        exact h

theorem bfsLoop_keeps_zero (tax : Taxonomy) (r : String) :
    ∀ (fuel : Nat) (level : Levels) (q : List String), levelsGet level r = some 0 →
      levelsGet (bfsLoop tax fuel level q) r = some 0 := by
  intro fuel
  induction fuel with
  | zero => intro level q h; exact h
  | succ n ih =>
    intro level q h
    cases q with
    | nil => exact h
    | cons u rest =>
      rw [bfsLoop]
      exact ih _ _ (relaxChildren_keeps_zero _ _ r _ h)

theorem alookup_map_self {β : Type} (f : String → β) :
    ∀ (l : List String) (r : String), r ∈ l →
      alookup (l.map (fun n => (n, f n))) r = some (f r) := by
  intro l
  induction l with
  | nil => intro r hr; cases hr
  | cons n rest ih =>
    intro r hr
    by_cases hn : n = r
    · subst hn
      simp [alookup]
    · rcases List.mem_cons.mp hr with h | h
      · exact absurd h.symm hn
      · simpa [alookup, hn] using ih r h

/-- A root is assigned level 0 by the seeding and keeps it through every
relaxation. -/
theorem get_level_root_eq_zero (tax : Taxonomy) (r : String)
    (hmem : r ∈ nodeIds tax) (hroot : inTaxParents tax r = []) :
    get_level tax r = 0 := by
  have hrroots : r ∈ (nodeIds tax).filter (fun n => decide (inTaxParents tax n = [])) := by
    rw [List.mem_filter]
    exact ⟨hmem, by simp [hroot]⟩
  have hinit : levelsGet
      (((nodeIds tax).filter (fun n => decide (inTaxParents tax n = []))).map
        (fun r => (r, 0))) r = some 0 := by
    have := alookup_map_self (fun _ => 0)
      ((nodeIds tax).filter (fun n => decide (inTaxParents tax n = []))) r hrroots
    simpa [levelsGet] using this
  have hfin := bfsLoop_keeps_zero tax r
    ((tax.length + 1) * (tax.length + 1) * (tax.length + 1))
    (((nodeIds tax).filter (fun n => decide (inTaxParents tax n = []))).map
      (fun r => (r, 0)))
    ((nodeIds tax).filter (fun n => decide (inTaxParents tax n = [])))
    hinit
  have hlev : levelsGet (computeLevels tax) r = some 0 := by
    show alookup ((nodeIds tax).map (fun n => (n,
      (levelsGet (bfsLoop tax
        ((tax.length + 1) * (tax.length + 1) * (tax.length + 1))
        (((nodeIds tax).filter (fun n => decide (inTaxParents tax n = []))).map
          (fun r => (r, 0)))
        ((nodeIds tax).filter (fun n => decide (inTaxParents tax n = [])))) n).getD 0)))
      r = some 0
    rw [alookup_map_self _ (nodeIds tax) r hmem, hfin]
    rfl
  unfold get_level
  rw [hlev]
  rfl

/-- C3: level computation is minimum BFS distance from the roots: every
root (no in-taxonomy parent) is assigned level 0 in any taxonomy; on the
chain root→A→B the levels are 0, 1, 2; a node whose parents sit at levels
1 and 2 gets `min(1,2)+1 = 2`; and the nodes of an isolated cyclic
component, never reached from any root, fall back to level 0. -/
theorem compute_levels_min_bfs_distance :
    (∀ (tax : Taxonomy) (r : String), r ∈ nodeIds tax →
      inTaxParents tax r = [] → get_level tax r = 0) ∧
    (get_level chainTax "root" = 0 ∧ get_level chainTax "A" = 1 ∧
      get_level chainTax "B" = 2) ∧
    (get_level diamondTax "p1" = 1 ∧ get_level diamondTax "p2" = 2 ∧
      get_level diamondTax "x" = 2) ∧
    (get_level cycleTax "r" = 0 ∧ get_level cycleTax "c1" = 0 ∧
      get_level cycleTax "c2" = 0) := by
  exact ⟨get_level_root_eq_zero, by decide, by decide, by decide⟩

/-- Witness: the root clause of `compute_levels_min_bfs_distance` applied
to the chain fixture. -/
theorem compute_levels_min_bfs_distance_witness :
    get_level chainTax "root" = 0 :=
  compute_levels_min_bfs_distance.1 chainTax "root" (by decide) (by decide)

/-! ## C9 — label resolution -/

/-- C9: `get_label` is total: for a known id it returns the stripped label
in `prefer_lang` when present and non-blank, else the English label, else
any available label; for an id without a usable label, or an unknown id,
it returns the id itself. -/
theorem get_label_total_with_fallbacks :
    (∀ (tax : Taxonomy) (cid : String) (pl : Option String),
        taxGet tax cid = none → get_label tax cid pl = cid) ∧
    (∀ (tax : Taxonomy) (cid lang v : String) (name : List (String × String))
        (ps : Option (List String)),
        taxGet tax cid = some ⟨some name, ps⟩ → lang ≠ "" →
        alookup name lang = some v → pyStrip v ≠ "" →
        get_label tax cid (some lang) = pyStrip v) ∧
    get_label teaTax "en:tea" (some "ru") = "Чай" ∧
    get_label teaTax "en:tea" (some "fr") = "Tea" ∧
    get_label teaTax "en:the" (some "ru") = "Thé" ∧
    get_label teaTax "en:unknown" (some "ru") = "en:unknown" := by
  refine ⟨?_, ?_, rfl, rfl, rfl, rfl⟩
  · intro tax cid pl h
    simp [get_label, h, labelFor]
  · intro tax cid lang v name ps h hlang hv hblank
    simp [get_label, h, labelFor, hlang, hv, hblank]

/-- Witness: the general clauses of `get_label_total_with_fallbacks`
applied at concrete inputs. -/
theorem get_label_total_with_fallbacks_witness :
    get_label teaTax "nope" (some "ru") = "nope" ∧
    get_label teaTax "en:tea" (some "ru") = "Чай" :=
  ⟨get_label_total_with_fallbacks.1 teaTax "nope" (some "ru") rfl,
   get_label_total_with_fallbacks.2.1 teaTax "en:tea" "ru" "Чай"
     [("en", "Tea"), ("ru", "Чай")] (some []) rfl (by decide) rfl (by decide)⟩

/-! ## C7 — extraction deduplication -/

theorem dlookup_none_iff (d : List ((String × String) × ExtractedItem))
    (k : String × String) : dlookup d k = none ↔ k ∉ d.map Prod.fst := by
  induction d with
  | nil => simp [dlookup]
  | cons kv rest ih =>
    obtain ⟨k', v⟩ := kv
    by_cases h : k' = k
    · subst h
      simp [dlookup]
    · have hne : k ≠ k' := fun hh => h hh.symm
      simp [dlookup, h, hne, ih]

theorem dlookup_mem {d : List ((String × String) × ExtractedItem)}
    {k : String × String} {v : ExtractedItem} (h : dlookup d k = some v) :
    (k, v) ∈ d := by
  induction d with
  | nil => simp [dlookup] at h
  | cons kv rest ih =>
    obtain ⟨k', v'⟩ := kv
    by_cases hk : k' = k
    · subst hk
      simp [dlookup] at h
      subst h
      exact List.mem_cons_self _ _
    · simp [dlookup, hk] at h
      exact List.mem_cons_of_mem _ (ih h)

theorem dset_subset {d : List ((String × String) × ExtractedItem)}
    {k : String × String} {v : ExtractedItem} {kv : (String × String) × ExtractedItem}
    (h : kv ∈ dset d k v) : kv = (k, v) ∨ kv ∈ d := by
  induction d with
  | nil => simpa [dset] using h
  | cons kv' rest ih =>
    obtain ⟨k', v'⟩ := kv'
    by_cases hk : k' = k
    · subst hk
      simp [dset] at h
      rcases h with h | h
      · exact Or.inl h
      · exact Or.inr (List.mem_cons_of_mem _ h)
    · simp [dset, hk] at h
      rcases h with h | h
      · exact Or.inr (by simp [h])
      · rcases ih h with h | h
        · exact Or.inl h
        · exact Or.inr (List.mem_cons_of_mem _ h)

theorem mem_dset_self (d : List ((String × String) × ExtractedItem))
    (k : String × String) (v : ExtractedItem) : (k, v) ∈ dset d k v := by
  induction d with
  | nil => simp [dset]
  | cons kv' rest ih =>
    obtain ⟨k', v'⟩ := kv'
    by_cases hk : k' = k
    · subst hk
      simp [dset]
    · simp [dset, hk]
      exact Or.inr ih

theorem mem_dset_of_ne {d : List ((String × String) × ExtractedItem)}
    {k : String × String} {v : ExtractedItem} {kv : (String × String) × ExtractedItem}
    (h : kv ∈ d) (hne : kv.1 ≠ k) : kv ∈ dset d k v := by
  induction d with
  | nil => cases h
  | cons kv' rest ih =>
    obtain ⟨k', v'⟩ := kv'
    by_cases hk : k' = k
    · subst hk
      rcases List.mem_cons.mp h with h | h
      · exact absurd (congrArg Prod.fst h) hne
      · simp [dset]
        exact Or.inr h
    · rcases List.mem_cons.mp h with h | h
      · simp [dset, hk, h]
      · simp [dset, hk]
        exact Or.inr (ih h)

theorem dset_keys {d : List ((String × String) × ExtractedItem)}
    {k : String × String} (v : ExtractedItem) (hk : k ∈ d.map Prod.fst) :
    (dset d k v).map Prod.fst = d.map Prod.fst := by
  induction d with
  | nil => simp at hk
  | cons kv' rest ih =>
    obtain ⟨k', v'⟩ := kv'
    by_cases h : k' = k
    · subst h
      simp [dset]
    · simp only [List.map_cons, List.mem_cons] at hk
      rcases hk with hk | hk
      · exact absurd hk.symm h
      · simp [dset, h, ih hk]

theorem value_of_dlookup_nodup (k : String × String) (v w : ExtractedItem) :
    ∀ d : List ((String × String) × ExtractedItem), (d.map Prod.fst).Nodup →
      dlookup d k = some v → (k, w) ∈ d → w = v := by
  intro d
  induction d with
  | nil => intro _ _ hm; cases hm
  | cons kv' rest ih =>
    intro hnd hl hm
    obtain ⟨k', v'⟩ := kv'
    simp only [List.map_cons, List.nodup_cons] at hnd
    by_cases hk : k' = k
    · subst hk
      simp [dlookup] at hl
      rcases List.mem_cons.mp hm with h | h
      · have := (Prod.mk.injEq _ _ _ _).mp h
        exact this.2.trans hl
      · exact absurd (by simpa using List.mem_map_of_mem Prod.fst h) hnd.1
    · simp [dlookup, hk] at hl
      rcases List.mem_cons.mp hm with h | h
      · exact absurd ((Prod.mk.injEq _ _ _ _).mp h).1.symm hk
      · exact ih hnd.2 hl h

/-- Keys stay nodup across the whole dedup fold. -/
theorem dedup_fold_keys_nodup (items : List ExtractedItem) :
    ∀ d : List ((String × String) × ExtractedItem), (d.map Prod.fst).Nodup →
      ((items.foldl dedupStep d).map Prod.fst).Nodup := by
  induction items with
  | nil => intro d hd; simpa using hd
  | cons it rest ih =>
    intro d hd
    have hstep : ((dedupStep d it).map Prod.fst).Nodup := by
      unfold dedupStep
      cases hl : dlookup d (dedupKey it) with
      | none =>
        have hk : dedupKey it ∉ d.map Prod.fst := (dlookup_none_iff d _).mp hl
        simpa [List.map_append] using List.Nodup.append hd (by simp)
          (by simpa [List.disjoint_singleton] using hk)
      | some prev =>
        by_cases hc : prev.confidence < it.confidence
        · have hk : dedupKey it ∈ d.map Prod.fst := by
            by_contra hk
            rw [(dlookup_none_iff d _).mpr hk] at hl
            cases hl
          simpa [hc, dset_keys it hk] using hd
        · simpa [hc] using hd
    simpa using ih (dedupStep d it) hstep

/-- Every map entry's key is the dedup key of its value. -/
theorem dedup_fold_key_consistent (items : List ExtractedItem) :
    ∀ d : List ((String × String) × ExtractedItem),
      (∀ kv ∈ d, dedupKey kv.2 = kv.1) →
      ∀ kv ∈ items.foldl dedupStep d, dedupKey kv.2 = kv.1 := by
  induction items with
  | nil => intro d hd; simpa using hd
  | cons it rest ih =>
    intro d hd
    refine ih (dedupStep d it) ?_
    intro kv hkv
    cases hl : dlookup d (dedupKey it) with
    | none =>
      simp only [dedupStep, hl] at hkv
      rcases List.mem_append.mp hkv with h | h
      · exact hd kv h
      · simp at h
        subst h
        rfl
    | some prev =>
      simp only [dedupStep, hl] at hkv
      by_cases hc : prev.confidence < it.confidence
      · rw [if_pos hc] at hkv
        rcases dset_subset hkv with h | h
        · subst h; rfl
        · exact hd kv h
      · rw [if_neg hc] at hkv
        exact hd kv hkv

/-- Every map value comes from the initial map or from the processed
items. -/
theorem dedup_fold_origin (items : List ExtractedItem) :
    ∀ d kv, kv ∈ items.foldl dedupStep d → kv ∈ d ∨ kv.2 ∈ items := by
  induction items with
  | nil => intro d kv h; exact Or.inl (by simpa using h)
  | cons it rest ih =>
    intro d kv h
    rcases ih (dedupStep d it) kv h with h' | h'
    · cases hl : dlookup d (dedupKey it) with
      | none =>
        simp only [dedupStep, hl] at h'
        rcases List.mem_append.mp h' with h'' | h''
        · exact Or.inl h''
        · simp at h''
          subst h''
          simp
      | some prev =>
        simp only [dedupStep, hl] at h'
        by_cases hc : prev.confidence < it.confidence
        · rw [if_pos hc] at h'
          rcases dset_subset h' with h'' | h''
          · subst h''; simp
          · exact Or.inl h''
        · rw [if_neg hc] at h'
          exact Or.inl h'
    · exact Or.inr (List.mem_cons_of_mem _ h')

/-- Dominance: every processed item, and every initial entry, has a final
entry under its key with at least its confidence. -/
theorem dedup_fold_dominates (items : List ExtractedItem) :
    ∀ d : List ((String × String) × ExtractedItem), (d.map Prod.fst).Nodup →
      (∀ kv ∈ d, ∃ kv' ∈ items.foldl dedupStep d,
          kv'.1 = kv.1 ∧ kv.2.confidence ≤ kv'.2.confidence) ∧
      (∀ it ∈ items, ∃ kv' ∈ items.foldl dedupStep d,
          kv'.1 = dedupKey it ∧ it.confidence ≤ kv'.2.confidence) := by
  induction items with
  | nil =>
    intro d _
    refine ⟨fun kv hkv => ⟨kv, by simpa using hkv, rfl, le_refl _⟩, by simp⟩
  | cons it rest ih =>
    intro d hd
    have hstepnd : ((dedupStep d it).map Prod.fst).Nodup := by
      have := dedup_fold_keys_nodup [it] d hd
      simpa using this
    obtain ⟨ihold, ihnew⟩ := ih (dedupStep d it) hstepnd
    have hcarry : ∀ kv ∈ d, ∃ kv' ∈ dedupStep d it,
        kv'.1 = kv.1 ∧ kv.2.confidence ≤ kv'.2.confidence := by
      intro kv hkv
      cases hl : dlookup d (dedupKey it) with
      | none =>
        simp only [dedupStep, hl]
        exact ⟨kv, List.mem_append_left _ hkv, rfl, le_refl _⟩
      | some prev =>
        simp only [dedupStep, hl]
        by_cases hc : prev.confidence < it.confidence
        · rw [if_pos hc]
          by_cases hk : kv.1 = dedupKey it
          · have hkveq : kv = (dedupKey it, kv.2) := by
              obtain ⟨k1, v1⟩ := kv
              simp only at hk
              rw [hk]
            have hkv' : (dedupKey it, kv.2) ∈ d := hkveq ▸ hkv
            have hval : kv.2 = prev :=
              value_of_dlookup_nodup (dedupKey it) prev kv.2 d hd hl hkv'
            refine ⟨(dedupKey it, it), mem_dset_self _ _ _, by simp [hk], ?_⟩
            rw [hval]
            exact le_of_lt hc
          · exact ⟨kv, mem_dset_of_ne hkv hk, rfl, le_refl _⟩
        · rw [if_neg hc]
          exact ⟨kv, hkv, rfl, le_refl _⟩
    have hit : ∃ kv' ∈ dedupStep d it,
        kv'.1 = dedupKey it ∧ it.confidence ≤ kv'.2.confidence := by
      cases hl : dlookup d (dedupKey it) with
      | none =>
        simp only [dedupStep, hl]
        exact ⟨(dedupKey it, it), by simp, rfl, le_refl _⟩
      | some prev =>
        simp only [dedupStep, hl]
        by_cases hc : prev.confidence < it.confidence
        · rw [if_pos hc]
          exact ⟨(dedupKey it, it), mem_dset_self _ _ _, rfl, le_refl _⟩
        · rw [if_neg hc]
          exact ⟨(dedupKey it, prev), dlookup_mem hl, rfl, le_of_not_lt hc⟩
    constructor
    · intro kv hkv
      obtain ⟨kv1, hkv1, hkey1, hconf1⟩ := hcarry kv hkv
      obtain ⟨kv2, hkv2, hkey2, hconf2⟩ := ihold kv1 hkv1
      exact ⟨kv2, by simpa using hkv2, hkey2.trans hkey1, le_trans hconf1 hconf2⟩
    · intro it' hit'
      rcases List.mem_cons.mp hit' with h | h
      · subst h
        obtain ⟨kv1, hkv1, hkey1, hconf1⟩ := hit
        obtain ⟨kv2, hkv2, hkey2, hconf2⟩ := ihold kv1 hkv1
        exact ⟨kv2, by simpa using hkv2, hkey2.trans hkey1, le_trans hconf1 hconf2⟩
      · obtain ⟨kv2, hkv2, hkey2, hconf2⟩ := ihnew it' h
        exact ⟨kv2, by simpa using hkv2, hkey2, hconf2⟩

/-- `0.6` and `0.8` as rationals in constructor form (the kernel cannot
normalize rational literals built with division, so fixtures carry the
reduced representation directly). -/
def rat35 : Rat := ⟨3, 5, by norm_num, by norm_num⟩

def rat45 : Rat := ⟨4, 5, by norm_num, by norm_num⟩

theorem rat35_eq : rat35 = 3/5 := by
  rw [show rat35 = Rat.mk' 3 5 (by norm_num) (by norm_num) from rfl, Rat.mk'_eq_divInt]
  norm_num [Rat.divInt_eq_div]

theorem rat45_eq : rat45 = 4/5 := by
  rw [show rat45 = Rat.mk' 4 5 (by norm_num) (by norm_num) from rfl, Rat.mk'_eq_divInt]
  norm_num [Rat.divInt_eq_div]

/-- The Tomato fixture of the claim. -/
def tomatoA : ExtractedItem :=
  ⟨"ingredient", "Tomato", "Tomato", none, [], rat35⟩

def tomatoB : ExtractedItem :=
  ⟨"ingredient", "tomato", "tomato", none, [], rat45⟩

/-- C7: items sharing the same `(item_type, case-insensitive normalized)`
key are merged: the output carries pairwise distinct keys, consists of
input items, and dominates every input item's confidence under its key;
`("ingredient","Tomato")@0.6` and `("ingredient","tomato")@0.8` collapse
to the single 0.8 entry. -/
theorem dedup_merges_same_key :
    (∀ items : List ExtractedItem,
        (dedupItems items).Pairwise (fun a b => dedupKey a ≠ dedupKey b)) ∧
    (∀ items : List ExtractedItem, ∀ r ∈ dedupItems items, r ∈ items) ∧
    (∀ items : List ExtractedItem, ∀ it ∈ items,
        ∃ r ∈ dedupItems items, dedupKey r = dedupKey it ∧
          it.confidence ≤ r.confidence) ∧
    dedupItems [tomatoA, tomatoB] = [tomatoB] ∧
    (dedupItems [tomatoA, tomatoB]).map (·.confidence) = [4/5] := by
  refine ⟨?_, ?_, ?_, by decide, by rw [← rat45_eq]; decide⟩
  · intro items
    have hnd := dedup_fold_keys_nodup items [] (by simp)
    have hcons := dedup_fold_key_consistent items [] (by simp)
    have hmapeq : (items.foldl dedupStep []).map (fun kv => dedupKey kv.2) =
        (items.foldl dedupStep []).map Prod.fst :=
      List.map_congr_left (fun kv hkv => hcons kv hkv)
    have hnd2 : ((items.foldl dedupStep []).map (fun kv => dedupKey kv.2)).Nodup := by
      rw [hmapeq]; exact hnd
    have hpw := List.pairwise_map.mp hnd2
    unfold dedupItems
    exact List.pairwise_map.mpr hpw
  · intro items r hr
    unfold dedupItems at hr
    obtain ⟨kv, hkv, hkv2⟩ := List.mem_map.mp hr
    rcases dedup_fold_origin items [] kv hkv with h | h
    · cases h
    · rwa [hkv2] at h
  · intro items it hit
    obtain ⟨-, hdom⟩ := dedup_fold_dominates items [] (by simp)
    obtain ⟨kv, hkv, hkey, hconf⟩ := hdom it hit
    have hck := dedup_fold_key_consistent items [] (by simp) kv hkv
    exact ⟨kv.2, List.mem_map_of_mem Prod.snd hkv, hck.trans hkey, hconf⟩

/-- Witness: the quantified clauses of `dedup_merges_same_key` applied to
the Tomato fixture. -/
theorem dedup_merges_same_key_witness :
    tomatoB ∈ [tomatoA, tomatoB] ∧
    (∃ r ∈ dedupItems [tomatoA, tomatoB], dedupKey r = dedupKey tomatoA ∧
      tomatoA.confidence ≤ r.confidence) :=
  ⟨dedup_merges_same_key.2.1 [tomatoA, tomatoB] tomatoB (by decide),
   dedup_merges_same_key.2.2.1 [tomatoA, tomatoB] tomatoA (by decide)⟩

/-! ## C1 — rerank ids are not validated against the presented candidates -/

/-- A candidate as presented to the reranker. -/
def appleCand : TaxonomyCandidate := ⟨"en:apple", "Apple", 95, 1, []⟩

/-- An item being linked. -/
def appleItem : ExtractedItem := ⟨"ingredient", "apple", "яблоко", some "apple", [], 1⟩

/-- A rerank response whose only entry carries an id outside any presented
candidate set, with `abstain = false`. -/
def zzResp : RerankResponse := ⟨some [.entry (some "en:zzz") (some 1)], false, none⟩

/-- C1 counterexample: the presented candidate set is `{en:apple}`, the
response's only `top_k` id is `en:zzz`, yet the resulting `top3` keeps
that entry instead of dropping it (and in particular is not empty). -/
theorem rerank_outside_id_not_dropped :
    "en:zzz" ∉ presentedIds [appleCand] ∧
    (linkResultOfResponse teaTax "en" appleItem zzResp).abstain = false ∧
    (linkResultOfResponse teaTax "en" appleItem zzResp).top3.map (·.category_id) =
      ["en:zzz"] ∧
    (linkResultOfResponse teaTax "en" appleItem zzResp).top3 ≠ [] := by
  decide

theorem top3_fold_length (tax : Taxonomy) (lang : String) (l : List TopEntry) :
    ∀ acc : List LinkedCategory,
      (l.foldl (top3Step tax lang) acc).length ≤ acc.length + l.length := by
  induction l with
  | nil => intro acc; simp
  | cons e rest ih =>
    intro acc
    refine le_trans (ih (top3Step tax lang acc e)) ?_
    have hstep : (top3Step tax lang acc e).length ≤ acc.length + 1 := by
      cases e with
      | notDict => simp [top3Step]
      | entry oid oscore =>
        simp only [top3Step]
        by_cases h : pyStrip (oid.getD "") = ""
        · simp [h]
        · simp [h]
    simp only [List.length_cons]
    omega

theorem top3_fold_provenance (tax : Taxonomy) (lang : String) (l : List TopEntry) :
    ∀ acc c, c ∈ l.foldl (top3Step tax lang) acc →
      c ∈ acc ∨ c.category_id ≠ "" ∧
        ∃ oid oscore, TopEntry.entry oid oscore ∈ l ∧
          pyStrip (oid.getD "") = c.category_id ∧ c.score = clamp01 oscore 0 := by
  induction l with
  | nil => intro acc c h; exact Or.inl (by simpa using h)
  | cons e rest ih =>
    intro acc c h
    rcases ih (top3Step tax lang acc e) c h with h' | h'
    · cases e with
      | notDict =>
        simp only [top3Step] at h'
        exact Or.inl h'
      | entry oid oscore =>
        simp only [top3Step] at h'
        by_cases hb : pyStrip (oid.getD "") = ""
        · rw [if_pos hb] at h'
          exact Or.inl h'
        · rw [if_neg hb] at h'
          rcases List.mem_append.mp h' with h'' | h''
          · exact Or.inl h''
          · simp at h''
            subst h''
            exact Or.inr ⟨hb, oid, oscore, by simp, rfl, rfl⟩
    · obtain ⟨hne, oid, oscore, hmem, hrest⟩ := h'
      exact Or.inr ⟨hne, oid, oscore, List.mem_cons_of_mem _ hmem, hrest⟩

/-- C1 amended: the code performs no membership check of rerank ids
against the presented candidates. `top3` holds at most 3 entries; each
comes from one of the first three `top_k` entries, with a non-blank
stripped id and a clamped score — whether or not that id was presented
(an unpresented id being kept is exhibited by this claim's counterexample). -/
theorem rerank_ids_unvalidated_shape :
    (∀ tax lang item resp,
        (linkResultOfResponse tax lang item resp).top3.length ≤ 3) ∧
    (∀ tax lang item resp c,
        c ∈ (linkResultOfResponse tax lang item resp).top3 →
        c.category_id ≠ "" ∧
          ∃ oid oscore, TopEntry.entry oid oscore ∈ (resp.top_k.getD []).take 3 ∧
            pyStrip (oid.getD "") = c.category_id ∧ c.score = clamp01 oscore 0) := by
  constructor
  · intro tax lang item resp
    show (buildTop3 tax lang resp.top_k).length ≤ 3
    cases htk : resp.top_k with
    | none => simp [buildTop3]
    | some entries =>
      have hf := top3_fold_length tax lang (entries.take 3) []
      have hlen : (entries.take 3).length ≤ 3 := List.length_take_le 3 entries
      simp only [buildTop3, List.length_nil] at hf ⊢
      omega
  · intro tax lang item resp c hc
    change c ∈ buildTop3 tax lang resp.top_k at hc
    cases htk : resp.top_k with
    | none => rw [htk] at hc; simp [buildTop3] at hc
    | some entries =>
      rw [htk] at hc
      simp only [buildTop3] at hc
      rcases top3_fold_provenance tax lang (entries.take 3) [] c hc with h | h
      · cases h
      · simpa [htk] using h

/-- Witness: `rerank_ids_unvalidated_shape` applied to the concrete
outside-id response. -/
theorem rerank_ids_unvalidated_shape_witness :
    (linkResultOfResponse teaTax "en" appleItem zzResp).top3.length ≤ 3 ∧
    ((⟨"en:zzz", "en:zzz", 1, 0⟩ : LinkedCategory).category_id ≠ "" ∧
      ∃ oid oscore, TopEntry.entry oid oscore ∈ (zzResp.top_k.getD []).take 3 ∧
        pyStrip (oid.getD "") = (⟨"en:zzz", "en:zzz", 1, 0⟩ : LinkedCategory).category_id ∧
        (⟨"en:zzz", "en:zzz", 1, 0⟩ : LinkedCategory).score = clamp01 oscore 0) :=
  ⟨rerank_ids_unvalidated_shape.1 teaTax "en" appleItem zzResp,
   rerank_ids_unvalidated_shape.2 teaTax "en" appleItem zzResp
     ⟨"en:zzz", "en:zzz", 1, 0⟩ (by decide)⟩

/-! ## Shared persistence / pipeline lemmas -/

theorem persist_fold_items_length (u m em rm : String) (results : List ItemLinkResult) :
    ∀ db : DB, (results.foldl (persistOne u m em rm) db).mealItems.length =
      db.mealItems.length + results.length := by
  induction results with
  | nil => intro db; simp
  | cons r rest ih =>
    intro db
    rw [List.foldl_cons, ih]
    simp [persistOne]
    omega

theorem persist_fold_filter_other (u m em rm : String) (results : List ItemLinkResult) :
    ∀ db : DB,
      (results.foldl (persistOne u m em rm) db).mealItems.filter
        (fun r => decide (r.meal_id ≠ m)) =
      db.mealItems.filter (fun r => decide (r.meal_id ≠ m)) := by
  induction results with
  | nil => intro db; simp
  | cons r rest ih =>
    intro db
    rw [List.foldl_cons, ih]
    simp [persistOne, List.filter_append]

theorem persist_fold_filter_this_length (u m em rm : String)
    (results : List ItemLinkResult) :
    ∀ db : DB,
      ((results.foldl (persistOne u m em rm) db).mealItems.filter
        (fun r => decide (r.meal_id = m))).length =
      (db.mealItems.filter (fun r => decide (r.meal_id = m))).length + results.length := by
  induction results with
  | nil => intro db; simp
  | cons r rest ih =>
    intro db
    rw [List.foldl_cons, ih]
    simp [persistOne, List.filter_append]
    omega

theorem linkAll_aux_length (link : ExtractedItem → Except String (ItemLinkResult × String)) :
    ∀ (items : List ExtractedItem) (acc out : List ItemLinkResult × String),
      items.foldlM
        (fun (acc : List ItemLinkResult × String) it => do
          let (r, m) ← link it
          pure (acc.1 ++ [r], m)) acc = .ok out →
      out.1.length = acc.1.length + items.length := by
  intro items
  induction items with
  | nil =>
    intro acc out h
    simp only [List.foldlM_nil, pure, Except.pure] at h
    cases h
    simp
  | cons it rest ih =>
    intro acc out h
    rw [List.foldlM_cons] at h
    cases hlink : link it with
    | error e =>
      rw [hlink] at h
      simp only [bind, Except.bind] at h
      cases h
    | ok rm =>
      obtain ⟨r, m⟩ := rm
      rw [hlink] at h
      simp only [bind, Except.bind, pure, Except.pure] at h
      have hrec := ih (acc.1 ++ [r], m) out h
      simp only [List.length_append, List.length_cons, List.length_nil] at hrec ⊢
      omega

/-- One result per extracted item: the linking loop never drops an item
(abstaining or not) unless it raises. -/
theorem linkAll_ok_length (link : ExtractedItem → Except String (ItemLinkResult × String))
    (m0 : String) (items : List ExtractedItem) (results : List ItemLinkResult)
    (mUsed : String) (h : linkAll link m0 items = .ok (results, mUsed)) :
    results.length = items.length := by
  have := linkAll_aux_length link items ([], m0) (results, mUsed) h
  simpa using this

/-! ## C2 — abstain does not clear top3, item still processed -/

/-- An abstaining response that nonetheless carries a `top_k` entry. -/
def abstainResp : RerankResponse :=
  ⟨some [.entry (some "en:tea") (some 1)], true, some "no safe match"⟩

/-- The empty store (autoincrement ids start at 1). -/
def emptyDB : DB := ⟨[], [], [], 1⟩

/-- C2 counterexample: a rerank response with `abstain = true` and a
non-empty `top_k` yields an `ItemLinkResult` whose `top3` is NOT empty,
and persisting it stores its category link — the ranked list is neither
empty nor treated as empty. -/
theorem abstain_top3_not_cleared :
    (linkResultOfResponse teaTax "en" appleItem abstainResp).abstain = true ∧
    (linkResultOfResponse teaTax "en" appleItem abstainResp).abstain_reason =
      some "no safe match" ∧
    (linkResultOfResponse teaTax "en" appleItem abstainResp).top3 ≠ [] ∧
    ((persist_results "u1" "m1"
        [linkResultOfResponse teaTax "en" appleItem abstainResp]
        "model-ex" "model-rr" true emptyDB).mealItemCategories.map (·.category_id)) =
      ["en:tea"] := by
  decide

/-- C2 amended: on an abstaining response the `abstain` flag and a
non-blank reason are preserved and the item is still counted (one result
per item from the linking loop, one `MealItem` row per result from
persistence) — but `top3` is not cleared: it is whatever the `top_k`
entries parse to, and its contents are persisted. -/
theorem abstain_flag_reason_preserved_item_counted :
    (∀ tax lang item resp, resp.abstain = true →
        (linkResultOfResponse tax lang item resp).abstain = true) ∧
    (∀ tax lang item resp s, resp.abstain_reason = some s → pyStrip s ≠ "" →
        (linkResultOfResponse tax lang item resp).abstain_reason = some s) ∧
    (∀ link m0 items results mUsed,
        linkAll link m0 items = .ok (results, mUsed) →
        results.length = items.length) ∧
    (∀ u m em rm results db,
        (persist_results u m results em rm true db).mealItems.length =
          (db.mealItems.filter (fun r => decide (r.meal_id ≠ m))).length +
            results.length) := by
  refine ⟨?_, ?_, ?_, ?_⟩
  · intro tax lang item resp h
    simpa [linkResultOfResponse] using h
  · intro tax lang item resp s hs hblank
    simp [linkResultOfResponse, parseAbstainReason, hs, hblank]
  · exact linkAll_ok_length
  · intro u m em rm results db
    unfold persist_results
    rw [persist_fold_items_length]
    simp

/-- Witness: `abstain_flag_reason_preserved_item_counted` applied to the
abstaining fixture. -/
theorem abstain_flag_reason_preserved_item_counted_witness :
    (linkResultOfResponse teaTax "en" appleItem abstainResp).abstain = true ∧
    (linkResultOfResponse teaTax "en" appleItem abstainResp).abstain_reason =
      some "no safe match" ∧
    ([(linkResultOfResponse teaTax "en" appleItem abstainResp)] : List ItemLinkResult).length =
      [appleItem].length :=
  ⟨abstain_flag_reason_preserved_item_counted.1 teaTax "en" appleItem abstainResp rfl,
   abstain_flag_reason_preserved_item_counted.2.1 teaTax "en" appleItem abstainResp
     "no safe match" rfl (by decide),
   abstain_flag_reason_preserved_item_counted.2.2.1
     (fun _ => .ok (linkResultOfResponse teaTax "en" appleItem abstainResp, "rr"))
     "rr" [appleItem] [linkResultOfResponse teaTax "en" appleItem abstainResp] "rr" rfl⟩

/-! ## C6 — replace-on-rerun persistence (idempotent reruns) -/

/-- Two successfully extracted items. -/
def okItem1 : ExtractedItem := ⟨"dish", "суп", "суп", some "soup", [], 1⟩

def okItem2 : ExtractedItem := ⟨"drink", "чай", "чай", some "tea", [], 1⟩

/-- Their successful link results. -/
def okResult1 : ItemLinkResult := ⟨okItem1, [⟨"en:the", "Thé", 1, 0⟩], false, none⟩

def okResult2 : ItemLinkResult := ⟨okItem2, [⟨"en:tea", "Tea", 1, 0⟩], false, none⟩

/-- A pipeline run in which everything succeeds. -/
def okEnv : PipelineEnv :=
  ⟨.ok ([okItem1, okItem2], "model-ex"),
   fun it => if it = okItem1 then .ok (okResult1, "model-rr") else .ok (okResult2, "model-rr"),
   true⟩

/-- One full successful pipeline run for meal `meal-1`. -/
def runOnce (db : DB) : List ItemLinkResult × DB :=
  process_meal okEnv "u7" "meal-1" "суп и чай" (some "sk-key") "rr-default" db

theorem filter_ne_filter_eq_nil (m : String) (l : List MealItemRow) :
    (l.filter (fun r => decide (r.meal_id ≠ m))).filter
      (fun r => decide (r.meal_id = m)) = [] := by
  induction l with
  | nil => rfl
  | cons r rest ih =>
    by_cases h : r.meal_id = m
    · simp [List.filter_cons, h, ih]
    · simp [List.filter_cons, h, ih]

/-- C6: persisting with `replace_existing` leaves exactly one `MealItem`
row per result for that meal id — regardless of what was stored before —
while rows of other meals are untouched; hence a rerun (persisting twice,
or running the whole pipeline twice) leaves `results.length` rows, not
double. The concrete two-item run yields 2 results and, run twice, exactly
2 persisted items (with their 2 category links), not 4. -/
theorem persist_replaces_prior_idempotent :
    (∀ u m results em rm db,
        ((persist_results u m results em rm true db).mealItems.filter
          (fun r => decide (r.meal_id = m))).length = results.length) ∧
    (∀ u m results em rm db,
        (persist_results u m results em rm true db).mealItems.filter
          (fun r => decide (r.meal_id ≠ m)) =
        db.mealItems.filter (fun r => decide (r.meal_id ≠ m))) ∧
    (∀ u m results em rm db,
        ((persist_results u m results em rm true
            (persist_results u m results em rm true db)).mealItems.filter
          (fun r => decide (r.meal_id = m))).length = results.length) ∧
    (runOnce emptyDB).1.length = 2 ∧
    ((runOnce (runOnce emptyDB).2).2.mealItems.filter
      (fun r => decide (r.meal_id = "meal-1"))).length = 2 ∧
    (runOnce (runOnce emptyDB).2).2.mealItems.length = 2 ∧
    (runOnce (runOnce emptyDB).2).2.mealItemCategories.length = 2 := by
  have hthis : ∀ (u m : String) (results : List ItemLinkResult) (em rm : String) (db : DB),
      ((persist_results u m results em rm true db).mealItems.filter
        (fun r => decide (r.meal_id = m))).length = results.length := by
    intro u m results em rm db
    unfold persist_results
    simp only [if_pos trivial]
    rw [persist_fold_filter_this_length]
    simp [filter_ne_filter_eq_nil]
  have hother : ∀ (u m : String) (results : List ItemLinkResult) (em rm : String) (db : DB),
      (persist_results u m results em rm true db).mealItems.filter
        (fun r => decide (r.meal_id ≠ m)) =
      db.mealItems.filter (fun r => decide (r.meal_id ≠ m)) := by
    intro u m results em rm db
    unfold persist_results
    simp only [if_pos trivial]
    rw [persist_fold_filter_other]
    simp [List.filter_filter]
  exact ⟨hthis, hother, fun u m results em rm db => hthis u m results em rm _,
    by decide, by decide, by decide, by decide⟩

/-! ## C5 — process_meal error handling -/

/-- C5: `process_meal` is total and never surfaces an error. With missing
credentials or blank note text it returns `([], db)` for every environment
(so the inference service and the store are never touched). On an
extraction failure, a linking failure, or a persistence failure it appends
exactly one `meal_taxonomy_failed` audit event (after the
`meal_taxonomy_extracted` event when extraction had already succeeded) and
returns the empty list, leaving `mealItems` and `mealItemCategories` — in
particular anything persisted by an earlier successful run — untouched. -/
theorem process_meal_error_paths :
    (∀ env uid mid text key rm db, (key.getD "" = "" ∨ pyStrip text = "") →
        process_meal env uid mid text key rm db = ([], db)) ∧
    (∀ env uid mid text key rm db e, key.getD "" ≠ "" → pyStrip text ≠ "" →
        env.extractResult = .error e →
        process_meal env uid mid text key rm db =
          ([], auditEvent db uid "meal_taxonomy_failed" mid)) ∧
    (∀ env uid mid text key rm db items em e, key.getD "" ≠ "" → pyStrip text ≠ "" →
        env.extractResult = .ok (items, em) →
        linkAll env.linkResult rm items = .error e →
        process_meal env uid mid text key rm db =
          ([], auditEvent (auditEvent db uid "meal_taxonomy_extracted" mid)
                uid "meal_taxonomy_failed" mid)) ∧
    (∀ env uid mid text key rm db items em results rmu, key.getD "" ≠ "" →
        pyStrip text ≠ "" →
        env.extractResult = .ok (items, em) →
        linkAll env.linkResult rm items = .ok (results, rmu) →
        env.persistOk = false →
        process_meal env uid mid text key rm db =
          ([], auditEvent (auditEvent db uid "meal_taxonomy_extracted" mid)
                uid "meal_taxonomy_failed" mid)) := by
  refine ⟨?_, ?_, ?_, ?_⟩
  · intro env uid mid text key rm db h
    by_cases hk : key.getD "" = ""
    · simp [process_meal, hk]
    · rcases h with h | h
      · exact absurd h hk
      · simp [process_meal, hk, h]
  · intro env uid mid text key rm db e hk ht he
    simp [process_meal, hk, ht, he]
  · intro env uid mid text key rm db items em e hk ht he hl
    simp [process_meal, hk, ht, he, hl]
  · intro env uid mid text key rm db items em results rmu hk ht he hl hp
    simp [process_meal, hk, ht, he, hl, hp]

/-- Environments whose extraction / linking / persistence step fails. -/
def envExtractFail : PipelineEnv := ⟨.error "extract boom", fun _ => .error "never", true⟩

def envLinkFail : PipelineEnv := ⟨.ok ([okItem1], "model-ex"), fun _ => .error "link boom", true⟩

def envPersistFail : PipelineEnv := ⟨.ok ([okItem1], "model-ex"),
  fun _ => .ok (okResult1, "model-rr"), false⟩

/-- Witness: every clause of `process_meal_error_paths` applied at a
concrete input. -/
theorem process_meal_error_paths_witness :
    process_meal okEnv "u7" "meal-1" "   " (some "sk-key") "rr-default" emptyDB =
      ([], emptyDB) ∧
    process_meal envExtractFail "u7" "meal-1" "суп" (some "sk-key") "rr-default" emptyDB =
      ([], auditEvent emptyDB "u7" "meal_taxonomy_failed" "meal-1") ∧
    process_meal envLinkFail "u7" "meal-1" "суп" (some "sk-key") "rr-default" emptyDB =
      ([], auditEvent (auditEvent emptyDB "u7" "meal_taxonomy_extracted" "meal-1")
            "u7" "meal_taxonomy_failed" "meal-1") ∧
    process_meal envPersistFail "u7" "meal-1" "суп" (some "sk-key") "rr-default" emptyDB =
      ([], auditEvent (auditEvent emptyDB "u7" "meal_taxonomy_extracted" "meal-1")
            "u7" "meal_taxonomy_failed" "meal-1") :=
  ⟨process_meal_error_paths.1 okEnv "u7" "meal-1" "   " (some "sk-key") "rr-default"
     emptyDB (Or.inr (by decide)),
   process_meal_error_paths.2.1 envExtractFail "u7" "meal-1" "суп" (some "sk-key")
     "rr-default" emptyDB "extract boom" (by decide) (by decide) rfl,
   process_meal_error_paths.2.2.1 envLinkFail "u7" "meal-1" "суп" (some "sk-key")
     "rr-default" emptyDB [okItem1] "model-ex" "link boom" (by decide) (by decide)
     rfl rfl,
   process_meal_error_paths.2.2.2 envPersistFail "u7" "meal-1" "суп" (some "sk-key")
     "rr-default" emptyDB [okItem1] "model-ex" [okResult1] "model-rr" (by decide)
     (by decide) rfl rfl rfl⟩

/-! ## Sorting and association-list lemmas for the diversifier -/

theorem insertS_perm {α : Type} (le : α → α → Bool) (x : α) (l : List α) :
    List.Perm (insertS le x l) (x :: l) := by
  induction l with
  | nil => exact List.Perm.refl _
  | cons y ys ih =>
    by_cases h : le x y && ! le y x
    · rw [insertS, if_pos h]
    · rw [insertS, if_neg h]
      exact (ih.cons y).trans (List.Perm.swap x y ys)

theorem stableSortBy_perm {α : Type} (le : α → α → Bool) (l : List α) :
    List.Perm (stableSortBy le l) l := by
  suffices h : ∀ (l acc : List α),
      List.Perm (l.foldl (fun acc x => insertS le x acc) acc) (l ++ acc) by
    simpa using h l []
  intro l
  induction l with
  | nil => intro acc; simp
  | cons x xs ih =>
    intro acc
    have h1 : List.Perm (xs.foldl (fun acc x => insertS le x acc) (insertS le x acc))
        (xs ++ insertS le x acc) := ih _
    have h2 : List.Perm (xs ++ insertS le x acc) (xs ++ x :: acc) :=
      List.Perm.append_left xs (insertS_perm le x acc)
    have h3 : List.Perm (xs ++ x :: acc) (x :: (xs ++ acc)) := List.perm_middle
    exact (h1.trans h2).trans h3

theorem mem_stableSortBy {α : Type} {le : α → α → Bool} {x : α} {l : List α} :
    x ∈ stableSortBy le l ↔ x ∈ l :=
  (stableSortBy_perm le l).mem_iff

theorem insertS_pairwise {α : Type} {le : α → α → Bool}
    (htotal : ∀ a b, le a b || le b a)
    (htrans : ∀ a b c, le a b → le b c → le a c) (x : α) :
    ∀ l : List α, l.Pairwise (fun a b => le a b) →
      (insertS le x l).Pairwise (fun a b => le a b) := by
  intro l
  induction l with
  | nil => intro _; simp [insertS]
  | cons y ys ih =>
    intro h
    rw [List.pairwise_cons] at h
    by_cases hc : le x y && ! le y x
    · rw [insertS, if_pos hc]
      simp only [Bool.and_eq_true, Bool.not_eq_true'] at hc
      refine List.Pairwise.cons ?_ (List.Pairwise.cons h.1 h.2)
      intro z hz
      rcases List.mem_cons.mp hz with hz | hz
      · subst hz; exact hc.1
      · exact htrans x y z hc.1 (h.1 z hz)
    · rw [insertS, if_neg hc]
      refine List.Pairwise.cons ?_ (ih h.2)
      intro z hz
      have hz' := (insertS_perm le x ys).mem_iff.mp hz
      rcases List.mem_cons.mp hz' with hz' | hz'
      · rw [hz']
        simp only [Bool.and_eq_true, Bool.not_eq_true'] at hc
        by_cases hxy : le x y = true
        · rcases Bool.eq_false_or_eq_true (le y x) with hyx | hyx
          · exact hyx
          · exact absurd ⟨hxy, hyx⟩ hc
        · have := htotal x y
          rcases Bool.or_eq_true_iff.mp this with h1 | h1
          · exact absurd h1 hxy
          · exact h1
      · exact h.1 z hz'

theorem stableSortBy_pairwise {α : Type} {le : α → α → Bool}
    (htotal : ∀ a b, le a b || le b a)
    (htrans : ∀ a b c, le a b → le b c → le a c) (l : List α) :
    (stableSortBy le l).Pairwise (fun a b => le a b) := by
  suffices h : ∀ (l acc : List α), acc.Pairwise (fun a b => le a b) →
      (l.foldl (fun acc x => insertS le x acc) acc).Pairwise (fun a b => le a b) by
    exact h l [] (by simp)
  intro l
  induction l with
  | nil => intro acc h; simpa using h
  | cons x xs ih =>
    intro acc h
    exact ih (insertS le x acc) (insertS_pairwise htotal htrans x acc h)

theorem lexGE_total (a b : Int × Int) : lexGE a b || lexGE b a := by
  simp only [lexGE, Bool.or_eq_true, Bool.and_eq_true, decide_eq_true_eq]
  omega

theorem lexGE_trans (a b c : Int × Int) (h1 : lexGE a b) (h2 : lexGE b c) :
    lexGE a c := by
  simp only [lexGE, Bool.or_eq_true, Bool.and_eq_true, decide_eq_true_eq] at *
  omega

/-- The head of the score-sorted list dominates every candidate's score. -/
theorem sortScoreNegLevel_head_max (cands : List TaxonomyCandidate)
    (b : TaxonomyCandidate) (rest : List TaxonomyCandidate)
    (h : sortScoreNegLevel cands = b :: rest) :
    ∀ c ∈ cands, c.score ≤ b.score := by
  intro c hc
  have hperm := stableSortBy_perm
    (fun a b => lexGE (a.score, -a.level) (b.score, -b.level)) cands
  have hc' : c ∈ b :: rest := by
    rw [← h]
    exact hperm.symm.subset hc
  rcases List.mem_cons.mp hc' with hc' | hc'
  · subst hc'; exact le_refl _
  · have hpw := @stableSortBy_pairwise TaxonomyCandidate
      (fun a b => lexGE (a.score, -a.level) (b.score, -b.level))
      (fun a b => lexGE_total _ _) (fun a b c => lexGE_trans _ _ _) cands
    rw [show stableSortBy (fun a b => lexGE (a.score, -a.level) (b.score, -b.level)) cands
        = sortScoreNegLevel cands from rfl, h, List.pairwise_cons] at hpw
    have := hpw.1 c hc'
    simp only [lexGE, Bool.or_eq_true, Bool.and_eq_true, decide_eq_true_eq] at this
    omega

theorem cntGet_cntSet (l : List (Int × Nat)) (k : Int) (v : Nat) (k' : Int) :
    cntGet (cntSet l k v) k' = if k = k' then v else cntGet l k' := by
  induction l with
  | nil =>
    by_cases h : k = k'
    · simp [cntSet, cntGet, h]
    · simp [cntSet, cntGet, h]
  | cons e rest ih =>
    obtain ⟨ek, ev⟩ := e
    by_cases he : ek = k
    · subst he
      by_cases h : ek = k'
      · simp [cntSet, cntGet, h]
      · simp [cntSet, cntGet, h]
    · by_cases h : ek = k'
      · subst h
        have : ¬ k = ek := fun hh => he hh.symm
        simp [cntSet, cntGet, he, this]
      · simp [cntSet, cntGet, he, h, ih]

theorem poolGet_poolSet (p : Pools) (k : Int) (v : List TaxonomyCandidate) (k' : Int) :
    poolGet (poolSet p k v) k' = if k = k' then v else poolGet p k' := by
  induction p with
  | nil =>
    by_cases h : k = k'
    · simp [poolSet, poolGet, h]
    · simp [poolSet, poolGet, h]
  | cons e rest ih =>
    obtain ⟨ek, ev⟩ := e
    by_cases he : ek = k
    · subst he
      by_cases h : ek = k'
      · simp [poolSet, poolGet, h]
      · simp [poolSet, poolGet, h]
    · by_cases h : ek = k'
      · subst h
        have : ¬ k = ek := fun hh => he hh.symm
        simp [poolSet, poolGet, he, this]
      · simp [poolSet, poolGet, he, h, ih]

/-- Count of picked candidates sitting at a given level. -/
def countLevel (lvl : Int) (l : List TaxonomyCandidate) : Nat :=
  (l.filter (fun c => decide (c.level = lvl))).length

theorem countLevel_append_one (lvl : Int) (l : List TaxonomyCandidate)
    (c : TaxonomyCandidate) :
    countLevel lvl (l ++ [c]) =
      countLevel lvl l + (if c.level = lvl then 1 else 0) := by
  by_cases h : c.level = lvl
  · simp [countLevel, List.filter_append, h]
  · simp [countLevel, List.filter_append, h]

/-- Loop invariant of the round-robin selection: picks beyond the forced
list are counted by the per-level counters, counters respect the cap, and
every pool holds only candidates of its own level. -/
structure DivInv (maxPerLevel : Int) (forced : List TaxonomyCandidate)
    (st : DivState) : Prop where
  count_le : ∀ lvl : Int,
    countLevel lvl st.picked ≤ countLevel lvl forced + cntGet st.perLevel lvl
  cap : ∀ lvl : Int, (cntGet st.perLevel lvl : Int) ≤ max maxPerLevel 0
  pools_level : ∀ lvl : Int, ∀ c ∈ poolGet st.pools lvl, c.level = lvl

theorem divStep_inv {limit maxPerLevel : Int} {forced : List TaxonomyCandidate}
    {st : DivState} {lvl0 : Int} (h : DivInv maxPerLevel forced st) :
    DivInv maxPerLevel forced (divStep limit maxPerLevel st lvl0) := by
  unfold divStep
  by_cases h1 : limit ≤ (st.picked.length : Int)
  · simpa [h1] using h
  · rw [if_neg h1]
    by_cases h2 : maxPerLevel ≤ (cntGet st.perLevel lvl0 : Int)
    · simpa [h2] using h
    · rw [if_neg h2]
      cases hp : poolGet st.pools lvl0 with
      | nil => exact h
      | cons c rest =>
        have hclvl : c.level = lvl0 :=
          h.pools_level lvl0 c (by rw [hp]; exact List.mem_cons_self _ _)
        refine ⟨?_, ?_, ?_⟩
        · intro lvl
          simp only
          rw [countLevel_append_one, cntGet_cntSet]
          by_cases hl : lvl0 = lvl
          · subst hl
            have := h.count_le lvl0
            simp [hclvl]
            omega
          · have hne : ¬ c.level = lvl := by rw [hclvl]; exact hl
            have := h.count_le lvl
            simp [hne, hl]
            omega
        · intro lvl
          simp only
          rw [cntGet_cntSet]
          by_cases hl : lvl0 = lvl
          · subst hl
            rw [if_pos rfl]
            push_cast
            omega
          · rw [if_neg hl]
            exact h.cap lvl
        · intro lvl c' hc'
          simp only at hc'
          rw [poolGet_poolSet] at hc'
          by_cases hl : lvl0 = lvl
          · subst hl
            rw [if_pos rfl] at hc'
            exact h.pools_level lvl0 c' (by rw [hp]; exact List.mem_cons_of_mem _ hc')
          · rw [if_neg hl] at hc'
            exact h.pools_level lvl c' hc'

theorem divPass_inv {limit maxPerLevel : Int} {forced : List TaxonomyCandidate}
    (levels : List Int) :
    ∀ st : DivState, DivInv maxPerLevel forced st →
      DivInv maxPerLevel forced (divPass limit maxPerLevel levels st) := by
  induction levels with
  | nil => intro st h; exact h
  | cons lvl rest ih =>
    intro st h
    exact ih (divStep limit maxPerLevel st lvl) (divStep_inv h)

theorem divLoop_inv {limit maxPerLevel : Int} {forced : List TaxonomyCandidate}
    (levels : List Int) (fuel : Nat) :
    ∀ st : DivState, DivInv maxPerLevel forced st →
      DivInv maxPerLevel forced (divLoop limit maxPerLevel levels fuel st) := by
  induction fuel with
  | zero => intro st h; exact h
  | succ n ih =>
    intro st h
    rw [divLoop]
    by_cases hc : st.progressed && (st.picked.length : Int) < limit
    · rw [if_pos hc]
      exact ih _ (divPass_inv levels _ (by exact ⟨h.count_le, h.cap, h.pools_level⟩))
    · rw [if_neg hc]
      exact h

theorem divStep_keeps_picked (limit maxPerLevel : Int) (st : DivState) (lvl : Int) :
    st.picked <+: (divStep limit maxPerLevel st lvl).picked := by
  unfold divStep
  by_cases h1 : limit ≤ (st.picked.length : Int)
  · simp [h1]
  · rw [if_neg h1]
    by_cases h2 : maxPerLevel ≤ (cntGet st.perLevel lvl : Int)
    · simp [h2]
    · rw [if_neg h2]
      cases hp : poolGet st.pools lvl with
      | nil => exact List.prefix_refl _
      | cons c rest => exact ⟨[c], rfl⟩

theorem divPass_keeps_picked (limit maxPerLevel : Int) (levels : List Int) :
    ∀ st : DivState, st.picked <+: (divPass limit maxPerLevel levels st).picked := by
  induction levels with
  | nil => intro st; exact List.prefix_refl _
  | cons lvl rest ih =>
    intro st
    exact (divStep_keeps_picked limit maxPerLevel st lvl).trans
      (ih (divStep limit maxPerLevel st lvl))

theorem divLoop_keeps_picked (limit maxPerLevel : Int) (levels : List Int)
    (fuel : Nat) :
    ∀ st : DivState, st.picked <+: (divLoop limit maxPerLevel levels fuel st).picked := by
  induction fuel with
  | zero => intro st; exact List.prefix_refl _
  | succ n ih =>
    intro st
    rw [divLoop]
    by_cases hc : st.progressed && (st.picked.length : Int) < limit
    · rw [if_pos hc]
      have h1 := divPass_keeps_picked limit maxPerLevel levels
        { st with progressed := false }
      exact h1.trans (ih _)
    · rw [if_neg hc]

theorem buildPools_level (fids : List String) (l : List TaxonomyCandidate) :
    ∀ acc : Pools, (∀ lvl : Int, ∀ c ∈ poolGet acc lvl, c.level = lvl) →
      ∀ lvl : Int, ∀ c ∈ poolGet (l.foldl
        (fun acc c =>
          if fids.contains c.category_id then acc
          else poolSet acc c.level (poolGet acc c.level ++ [c])) acc) lvl,
        c.level = lvl := by
  induction l with
  | nil => intro acc h; exact h
  | cons c0 rest ih =>
    intro acc h
    refine ih _ ?_
    by_cases hf : fids.contains c0.category_id
    · simp only [hf, if_true]
      exact h
    · simp only [hf, Bool.false_eq_true, if_false]
      intro lvl c hc
      rw [poolGet_poolSet] at hc
      by_cases hl : c0.level = lvl
      · rw [if_pos hl] at hc
        rcases List.mem_append.mp hc with hc | hc
        · exact h _ c (hl ▸ hc)
        · simp at hc
          subst hc
          exact hl
      · rw [if_neg hl] at hc
        exact h lvl c hc

theorem poolGet_map_sort (le : TaxonomyCandidate → TaxonomyCandidate → Bool)
    (B : Pools) (lvl : Int) :
    poolGet (B.map (fun e => (e.1, stableSortBy le e.2))) lvl =
      stableSortBy le (poolGet B lvl) := by
  induction B with
  | nil => simp [poolGet, stableSortBy]
  | cons e rest ih =>
    obtain ⟨k, v⟩ := e
    by_cases hk : k = lvl
    · simp [poolGet, hk]
    · simp [poolGet, hk, ih]

theorem divPools_level (fids : List String) (sortedAll : List TaxonomyCandidate) :
    ∀ lvl : Int, ∀ c ∈ poolGet (divPools fids sortedAll) lvl, c.level = lvl := by
  have hbase : ∀ lvl : Int, ∀ c ∈ poolGet (buildPools fids sortedAll) lvl, c.level = lvl :=
    buildPools_level fids sortedAll [] (by intro lvl c hc; cases hc)
  intro lvl c hc
  unfold divPools at hc
  rw [poolGet_map_sort] at hc
  exact hbase lvl c (mem_stableSortBy.mp hc)

/-- The per-level cap of the diversifier: beyond the forced best, no level
contributes more than `max_per_level` candidates. -/
theorem diversify_by_level_cap (cands : List TaxonomyCandidate) (limit mpl : Int)
    (pb aib : Bool) (lvl : Int) :
    (countLevel lvl (diversify_by_level cands limit mpl pb aib) : Int) ≤
      (countLevel lvl (divForced aib (sortScoreNegLevel cands)) : Int) + max mpl 0 := by
  unfold diversify_by_level
  by_cases h0 : limit ≤ 0 ∨ cands = []
  · rw [if_pos h0]
    have : (0 : Int) ≤ (countLevel lvl (divForced aib (sortScoreNegLevel cands)) : Int) +
        max mpl 0 := by positivity
    simpa [countLevel] using this
  · rw [if_neg h0]
    simp only
    set sortedAll := sortScoreNegLevel cands with hsa
    set forced := divForced aib sortedAll with hf
    set pools := divPools (forced.map (·.category_id)) sortedAll with hpo
    set levels := divLevels pb pools with hlv
    set st0 : DivState :=
      { picked := forced, perLevel := [], pools := pools, progressed := true } with hst0
    set fin := divLoop limit mpl levels (cands.length + 2) st0 with hfin
    have hinv0 : DivInv mpl forced st0 := by
      refine ⟨?_, ?_, ?_⟩
      · intro lvl'
        simp [hst0, cntGet]
      · intro lvl'
        simp only [hst0, cntGet]
        positivity
      · intro lvl' c hc
        exact divPools_level (forced.map (·.category_id)) sortedAll lvl' c hc
    have hinv : DivInv mpl forced fin := divLoop_inv levels _ st0 hinv0
    have htake : countLevel lvl (fin.picked.take limit.toNat) ≤ countLevel lvl fin.picked := by
      have hsub : List.Sublist (fin.picked.take limit.toNat) fin.picked :=
        List.take_sublist _ _
      exact List.Sublist.length_le (List.Sublist.filter _ hsub)
    have := hinv.count_le lvl
    have := hinv.cap lvl
    omega

theorem diversify_length_le (cands : List TaxonomyCandidate) (limit mpl : Int)
    (pb aib : Bool) :
    (diversify_by_level cands limit mpl pb aib).length ≤ limit.toNat := by
  unfold diversify_by_level
  by_cases h0 : limit ≤ 0 ∨ cands = []
  · simp [h0]
  · rw [if_neg h0]
    exact List.length_take_le _ _

theorem sortScoreNegLevel_ne_nil {cands : List TaxonomyCandidate} (h : cands ≠ []) :
    sortScoreNegLevel cands ≠ [] := by
  intro hnil
  have := (stableSortBy_perm
    (fun a b => lexGE (a.score, -a.level) (b.score, -b.level)) cands).length_eq
  rw [show stableSortBy (fun a b => lexGE (a.score, -a.level) (b.score, -b.level)) cands
      = sortScoreNegLevel cands from rfl, hnil] at this
  exact h (List.eq_nil_of_length_eq_zero this.symm)

theorem diversify_best_included (cands : List TaxonomyCandidate) (limit mpl : Int)
    (pb : Bool) (hne : cands ≠ []) (hlim : 1 ≤ limit) :
    ∃ b ∈ diversify_by_level cands limit mpl pb true,
      ∀ c ∈ cands, c.score ≤ b.score := by
  obtain ⟨b, rest, hsa⟩ : ∃ b rest, sortScoreNegLevel cands = b :: rest := by
    cases hsa : sortScoreNegLevel cands with
    | nil => exact absurd hsa (sortScoreNegLevel_ne_nil hne)
    | cons b rest => exact ⟨b, rest, rfl⟩
  refine ⟨b, ?_, sortScoreNegLevel_head_max cands b rest hsa⟩
  unfold diversify_by_level
  have h0 : ¬ (limit ≤ 0 ∨ cands = []) := by
    push_neg
    exact ⟨by omega, hne⟩
  rw [if_neg h0]
  simp only
  set sortedAll := sortScoreNegLevel cands with hsaeq
  set forced := divForced true sortedAll with hf
  set pools := divPools (forced.map (·.category_id)) sortedAll with hpo
  set levels := divLevels pb pools with hlv
  set st0 : DivState :=
    { picked := forced, perLevel := [], pools := pools, progressed := true } with hst0
  have hforced : forced = [b] := by
    rw [hf, hsa]
    rfl
  have hpre := divLoop_keeps_picked limit mpl levels (cands.length + 2) st0
  obtain ⟨t, ht⟩ := hpre
  have hfin : (divLoop limit mpl levels (cands.length + 2) st0).picked = b :: t := by
    rw [← ht]
    simp [hst0, hforced]
  rw [hfin]
  obtain ⟨m, hm⟩ : ∃ m, limit.toNat = m + 1 := by
    have : 1 ≤ limit.toNat := by omega
    exact ⟨limit.toNat - 1, by omega⟩
  rw [hm, List.take_succ_cons]
  exact List.mem_cons_self _ _

theorem countLevel_le_length (lvl : Int) (l : List TaxonomyCandidate) :
    countLevel lvl l ≤ l.length :=
  List.length_filter_le _ _

/-! ## C4 — candidate diversification across levels -/

/-- The claim's example: level 0 holds one candidate of score 90, levels
1 and 2 hold five candidates each. -/
def c4cands : List TaxonomyCandidate :=
  [⟨"z0", "z0", 90, 0, []⟩,
   ⟨"a1", "a1", 80, 1, []⟩, ⟨"a2", "a2", 78, 1, []⟩, ⟨"a3", "a3", 76, 1, []⟩,
   ⟨"a4", "a4", 74, 1, []⟩, ⟨"a5", "a5", 72, 1, []⟩,
   ⟨"b1", "b1", 85, 2, []⟩, ⟨"b2", "b2", 83, 2, []⟩, ⟨"b3", "b3", 81, 2, []⟩,
   ⟨"b4", "b4", 79, 2, []⟩, ⟨"b5", "b5", 77, 2, []⟩]

/-- C4: `diversify_by_level` returns at most `limit` candidates; with
`always_include_best` the globally highest-scoring candidate is in the
output; beyond the forced best every level is capped at `max_per_level`;
and on the claim's example (limit 5, cap 2) the level-0 item is kept with
exactly 2 candidates from level 1 and 2 from level 2 — drawn round-robin
in ascending level order when `prefer_broader`, descending otherwise. -/
theorem diversify_by_level_spec :
    (∀ (cands : List TaxonomyCandidate) (limit mpl : Int) (pb aib : Bool),
        (diversify_by_level cands limit mpl pb aib).length ≤ limit.toNat) ∧
    (∀ (cands : List TaxonomyCandidate) (limit mpl : Int) (pb : Bool),
        cands ≠ [] → 1 ≤ limit →
        ∃ b ∈ diversify_by_level cands limit mpl pb true,
          ∀ c ∈ cands, c.score ≤ b.score) ∧
    (∀ (cands : List TaxonomyCandidate) (limit mpl : Int) (pb aib : Bool) (lvl : Int),
        (countLevel lvl (diversify_by_level cands limit mpl pb aib) : Int) ≤
          (countLevel lvl (divForced aib (sortScoreNegLevel cands)) : Int) + max mpl 0) ∧
    (diversify_by_level c4cands 5 2 true true).map (·.category_id) =
      ["z0", "a1", "b1", "a2", "b2"] ∧
    (diversify_by_level c4cands 5 2 false true).map (·.category_id) =
      ["z0", "b1", "a1", "b2", "a2"] ∧
    countLevel 0 (diversify_by_level c4cands 5 2 true true) = 1 ∧
    countLevel 1 (diversify_by_level c4cands 5 2 true true) = 2 ∧
    countLevel 2 (diversify_by_level c4cands 5 2 true true) = 2 :=
  ⟨diversify_length_le, diversify_best_included, diversify_by_level_cap,
   by decide, by decide, by decide, by decide, by decide⟩

/-- Witness: the quantified clauses of `diversify_by_level_spec` applied
to the claim's example. -/
theorem diversify_by_level_spec_witness :
    (diversify_by_level c4cands 5 2 true true).length ≤ (5 : Int).toNat ∧
    (∃ b ∈ diversify_by_level c4cands 5 2 true true,
      ∀ c ∈ c4cands, c.score ≤ b.score) ∧
    (countLevel 1 (diversify_by_level c4cands 5 2 true true) : Int) ≤
      (countLevel 1 (divForced true (sortScoreNegLevel c4cands)) : Int) + max 2 0 :=
  ⟨diversify_by_level_spec.1 c4cands 5 2 true true,
   diversify_by_level_spec.2.1 c4cands 5 2 true (by decide) (by decide),
   diversify_by_level_spec.2.2.1 c4cands 5 2 true true 1⟩

/-! ## C10 — the forced best is exempt from its level's cap -/

/-- The best candidate sits at level 5 together with three others; level 1
holds three candidates; `max_per_level = 2` and a loose limit. -/
def c10cands : List TaxonomyCandidate :=
  [⟨"best", "best", 99, 5, []⟩, ⟨"p1", "p1", 88, 5, []⟩, ⟨"p2", "p2", 87, 5, []⟩,
   ⟨"p3", "p3", 86, 5, []⟩,
   ⟨"q1", "q1", 85, 1, []⟩, ⟨"q2", "q2", 84, 1, []⟩, ⟨"q3", "q3", 83, 1, []⟩]

/-- C10: without `always_include_best` every level contributes at most
`max_per_level`; the forced best is not counted against its level's cap,
so with it a level contributes at most `max_per_level + 1` — at most
`max_per_level` for any level other than the forced best's — and the
`+ 1` is attained: on the fixture with cap 2, the best's level yields 3
candidates while the other level yields 2. -/
theorem diversify_forced_best_exempt_from_cap :
    (∀ (cands : List TaxonomyCandidate) (limit mpl : Int) (pb : Bool) (lvl : Int),
        (countLevel lvl (diversify_by_level cands limit mpl pb false) : Int) ≤
          max mpl 0) ∧
    (∀ (cands : List TaxonomyCandidate) (limit mpl : Int) (pb : Bool) (lvl : Int),
        (countLevel lvl (diversify_by_level cands limit mpl pb true) : Int) ≤
          max mpl 0 + 1) ∧
    (∀ (cands : List TaxonomyCandidate) (limit mpl : Int) (pb : Bool) (lvl : Int)
        (b : TaxonomyCandidate) (rest : List TaxonomyCandidate),
        sortScoreNegLevel cands = b :: rest → b.level ≠ lvl →
        (countLevel lvl (diversify_by_level cands limit mpl pb true) : Int) ≤
          max mpl 0) ∧
    (diversify_by_level c10cands 10 2 true true).map (fun c => (c.category_id, c.level)) =
      [("best", 5), ("q1", 1), ("p1", 5), ("q2", 1), ("p2", 5)] ∧
    countLevel 5 (diversify_by_level c10cands 10 2 true true) = 2 + 1 ∧
    countLevel 1 (diversify_by_level c10cands 10 2 true true) = 2 := by
  refine ⟨?_, ?_, ?_, by decide, by decide, by decide⟩
  · intro cands limit mpl pb lvl
    have := diversify_by_level_cap cands limit mpl pb false lvl
    simpa [divForced, countLevel] using this
  · intro cands limit mpl pb lvl
    have hcap := diversify_by_level_cap cands limit mpl pb true lvl
    have hle : countLevel lvl (divForced true (sortScoreNegLevel cands)) ≤ 1 := by
      refine le_trans (countLevel_le_length _ _) ?_
      simp [divForced]
    omega
  · intro cands limit mpl pb lvl b rest hsa hbl
    have hcap := diversify_by_level_cap cands limit mpl pb true lvl
    have hzero : countLevel lvl (divForced true (sortScoreNegLevel cands)) = 0 := by
      rw [divForced, if_pos rfl, hsa]
      simp [countLevel, List.take_succ_cons, hbl]
    omega

/-- Witness: the quantified clauses of
`diversify_forced_best_exempt_from_cap` applied to the fixture. -/
theorem diversify_forced_best_exempt_from_cap_witness :
    (countLevel 5 (diversify_by_level c10cands 10 2 true false) : Int) ≤ max 2 0 ∧
    (countLevel 5 (diversify_by_level c10cands 10 2 true true) : Int) ≤ max 2 0 + 1 ∧
    (countLevel 1 (diversify_by_level c10cands 10 2 true true) : Int) ≤ max 2 0 :=
  ⟨diversify_forced_best_exempt_from_cap.1 c10cands 10 2 true 5,
   diversify_forced_best_exempt_from_cap.2.1 c10cands 10 2 true 5,
   diversify_forced_best_exempt_from_cap.2.2.1 c10cands 10 2 true 1
     ⟨"best", "best", 99, 5, []⟩
     (sortScoreNegLevel c10cands).tail (by decide) (by decide)⟩

/-! ## C8 — ancestor expansion with visited tracking and decayed scores -/

theorem alookup_append_some {α : Type} (l l' : List (String × α)) (k : String)
    (v : α) (h : alookup l k = some v) : alookup (l ++ l') k = some v := by
  induction l with
  | nil => simp [alookup] at h
  | cons e rest ih =>
    obtain ⟨k0, v0⟩ := e
    by_cases hk : k0 = k
    · simp [alookup, hk] at h ⊢
      exact h
    · simp [alookup, hk] at h ⊢
      exact ih h

theorem alookup_append_right {α : Type} (l l' : List (String × α)) (k : String)
    (h : alookup l k = none) : alookup (l ++ l') k = alookup l' k := by
  induction l with
  | nil => simp
  | cons e rest ih =>
    obtain ⟨k0, v0⟩ := e
    by_cases hk : k0 = k
    · simp [alookup, hk] at h
    · simp [alookup, hk] at h ⊢
      exact ih h

/-- `walkAdd` keeps existing entries. -/
theorem walkAdd_some (tax : Taxonomy) (lang : String) (cScore : Int) (pid : String)
    (expanded : List (String × TaxonomyCandidate)) (k : String) (v : TaxonomyCandidate)
    (h : alookup expanded k = some v) :
    alookup (walkAdd tax lang cScore pid expanded) k = some v := by
  unfold walkAdd
  by_cases hs : (alookup expanded pid).isSome
  · rw [if_pos hs]
    exact h
  · rw [if_neg hs]
    exact alookup_append_some _ _ _ _ h

/-- After `walkAdd`, the walked id is a key. -/
theorem walkAdd_isSome (tax : Taxonomy) (lang : String) (cScore : Int) (pid : String)
    (expanded : List (String × TaxonomyCandidate)) :
    (alookup (walkAdd tax lang cScore pid expanded) pid).isSome := by
  unfold walkAdd
  by_cases hs : (alookup expanded pid).isSome
  · rw [if_pos hs]
    exact hs
  · rw [if_neg hs]
    cases hloo : alookup expanded pid with
    | none =>
      rw [alookup_append_right _ _ _ hloo]
      simp [alookup]
    | some w => rw [hloo] at hs; simp at hs

/-- `walkAdd` adds nothing under other keys. -/
theorem walkAdd_none (tax : Taxonomy) (lang : String) (cScore : Int) (pid : String)
    (expanded : List (String × TaxonomyCandidate)) (k : String) (hk : pid ≠ k)
    (h : alookup expanded k = none) :
    alookup (walkAdd tax lang cScore pid expanded) k = none := by
  unfold walkAdd
  by_cases hs : (alookup expanded pid).isSome
  · rw [if_pos hs]
    exact h
  · rw [if_neg hs]
    rw [alookup_append_right _ _ _ h]
    simp [alookup, hk]

/-- What `walkAdd` binds a fresh key to. -/
theorem walkAdd_new (tax : Taxonomy) (lang : String) (cScore : Int) (pid : String)
    (expanded : List (String × TaxonomyCandidate))
    (h : alookup expanded pid = none) :
    alookup (walkAdd tax lang cScore pid expanded) pid =
      some (mkParentCand tax lang pid cScore) := by
  unfold walkAdd
  rw [if_neg (by simp [h]), alookup_append_right _ _ _ h]
  simp [alookup]

/-- The walk never modifies an entry that is already present. -/
theorem expandWalk_preserves (tax : Taxonomy) (lang : String) (cScore : Int)
    (k : String) (v : TaxonomyCandidate) :
    ∀ (seen stack : List String) (expanded : List (String × TaxonomyCandidate)),
      alookup expanded k = some v →
      alookup (expandWalk tax lang cScore seen stack expanded) k = some v := by
  intro seen stack expanded
  induction seen, stack, expanded using expandWalk.induct tax lang cScore with
  | case1 seen expanded =>
    intro h
    rw [expandWalk]
    exact h
  | case2 seen pid rest expanded hmem ih =>
    intro h
    rw [expandWalk, dif_pos hmem]
    exact ih h
  | case3 seen rest expanded hmem ih =>
    intro h
    rw [expandWalk, dif_neg hmem, if_pos rfl]
    exact ih h
  | case4 seen pid rest expanded hmem hne ih =>
    intro h
    rw [expandWalk, dif_neg hmem, if_neg hne]
    exact ih (walkAdd_some tax lang cScore pid expanded k v h)

/-- Every entry the walk adds is the decayed parent candidate of the
walked candidate's score. -/
theorem expandWalk_added_shape (tax : Taxonomy) (lang : String) (cScore : Int)
    (k : String) (v : TaxonomyCandidate) :
    ∀ (seen stack : List String) (expanded : List (String × TaxonomyCandidate)),
      alookup expanded k = none →
      alookup (expandWalk tax lang cScore seen stack expanded) k = some v →
      v = mkParentCand tax lang k cScore := by
  intro seen stack expanded
  induction seen, stack, expanded using expandWalk.induct tax lang cScore with
  | case1 seen expanded =>
    intro h0 h1
    rw [expandWalk] at h1
    rw [h0] at h1
    cases h1
  | case2 seen pid rest expanded hmem ih =>
    intro h0 h1
    rw [expandWalk, dif_pos hmem] at h1
    exact ih h0 h1
  | case3 seen rest expanded hmem ih =>
    intro h0 h1
    rw [expandWalk, dif_neg hmem, if_pos rfl] at h1
    exact ih h0 h1
  | case4 seen pid rest expanded hmem hne ih =>
    intro h0 h1
    rw [expandWalk, dif_neg hmem, if_neg hne] at h1
    by_cases hk : pid = k
    · subst hk
      have hlook := walkAdd_new tax lang cScore pid expanded h0
      have := expandWalk_preserves tax lang cScore pid
        (mkParentCand tax lang pid cScore) (pid :: seen)
        ((get_parent_ids tax pid).reverse ++ rest)
        (walkAdd tax lang cScore pid expanded) hlook
      rw [this] at h1
      cases h1
      rfl
    · exact ih (walkAdd_none tax lang cScore pid expanded k hk h0) h1

/-- The ids reachable from a starting set by repeatedly stepping to a
parent: the "full parent chain". -/
inductive ReachFrom (tax : Taxonomy) (S : List String) : String → Prop
  | base {a : String} : a ∈ S → ReachFrom tax S a
  | step {b a : String} : ReachFrom tax S b → b ≠ "" →
      a ∈ get_parent_ids tax b → ReachFrom tax S a

theorem ReachFrom.mono {tax : Taxonomy} {S S' : List String} {a : String}
    (hS : ∀ x ∈ S, x ∈ S') (h : ReachFrom tax S a) : ReachFrom tax S' a := by
  induction h with
  | base hb => exact ReachFrom.base (hS _ hb)
  | step hb hne hp ih => exact ReachFrom.step ih hne hp

theorem reach_closed_in_seen {tax : Taxonomy} {seen : List String}
    (hcl : ∀ n ∈ seen, n ≠ "" → ∀ p ∈ get_parent_ids tax n, p ∈ seen)
    {a : String} (h : ReachFrom tax seen a) (ha : a ≠ "") : a ∈ seen := by
  induction h with
  | base hb => exact hb
  | step hb hne hp ih => exact hcl _ (ih hne) hne _ hp

/-- The walk visits the full parent chain: every non-blank id reachable
from the stack (or already visited) ends up as a key of the result —
termination over cyclic parent regions is given by the visited set
(`expandWalk` is well-founded on it). -/
theorem expandWalk_complete (tax : Taxonomy) (lang : String) (cScore : Int) :
    ∀ (seen stack : List String) (expanded : List (String × TaxonomyCandidate)),
      (∀ n ∈ seen, n ≠ "" → ∀ p ∈ get_parent_ids tax n, p ∈ seen ∨ p ∈ stack) →
      (∀ n ∈ seen, n ≠ "" → (alookup expanded n).isSome) →
      ∀ a, ReachFrom tax (stack ++ seen) a → a ≠ "" →
        (alookup (expandWalk tax lang cScore seen stack expanded) a).isSome := by
  intro seen stack expanded
  induction seen, stack, expanded using expandWalk.induct tax lang cScore with
  | case1 seen expanded =>
    intro hinv hsome a hr ha
    rw [expandWalk]
    have hcl : ∀ n ∈ seen, n ≠ "" → ∀ p ∈ get_parent_ids tax n, p ∈ seen := by
      intro n hn hne p hp
      rcases hinv n hn hne p hp with h | h
      · exact h
      · cases h
    have : a ∈ seen := reach_closed_in_seen hcl (by simpa using hr) ha
    exact hsome a this ha
  | case2 seen pid rest expanded hmem ih =>
    intro hinv hsome a hr ha
    rw [expandWalk, dif_pos hmem]
    refine ih ?_ hsome a ?_ ha
    · intro n hn hne p hp
      rcases hinv n hn hne p hp with h | h
      · exact Or.inl h
      · rcases List.mem_cons.mp h with h | h
        · exact Or.inl (h ▸ hmem)
        · exact Or.inr h
    · refine hr.mono ?_
      intro x hx
      rcases List.mem_append.mp hx with hx | hx
      · rcases List.mem_cons.mp hx with hx | hx
        · exact List.mem_append_right _ (hx ▸ hmem)
        · exact List.mem_append_left _ hx
      · exact List.mem_append_right _ hx
  | case3 seen rest expanded hmem ih =>
    intro hinv hsome a hr ha
    rw [expandWalk, dif_neg hmem, if_pos rfl]
    refine ih ?_ ?_ a ?_ ha
    · intro n hn hne p hp
      rcases List.mem_cons.mp hn with hn | hn
      · exact absurd hn hne
      · rcases hinv n hn hne p hp with h | h
        · exact Or.inl (List.mem_cons_of_mem _ h)
        · rcases List.mem_cons.mp h with h | h
          · exact Or.inl (h ▸ List.mem_cons_self _ _)
          · exact Or.inr h
    · intro n hn hne
      rcases List.mem_cons.mp hn with hn | hn
      · exact absurd hn hne
      · exact hsome n hn hne
    · refine hr.mono ?_
      intro x hx
      rcases List.mem_append.mp hx with hx | hx
      · rcases List.mem_cons.mp hx with hx | hx
        · exact List.mem_append_right _ (hx ▸ List.mem_cons_self _ _)
        · exact List.mem_append_left _ hx
      · exact List.mem_append_right _ (List.mem_cons_of_mem _ hx)
  | case4 seen pid rest expanded hmem hne ih =>
    intro hinv hsome a hr ha
    rw [expandWalk, dif_neg hmem, if_neg hne]
    refine ih ?_ ?_ a ?_ ha
    · intro n hn hne' p hp
      rcases List.mem_cons.mp hn with hn | hn
      · subst hn
        exact Or.inr (List.mem_append_left _ (List.mem_reverse.mpr hp))
      · rcases hinv n hn hne' p hp with h | h
        · exact Or.inl (List.mem_cons_of_mem _ h)
        · rcases List.mem_cons.mp h with h | h
          · exact Or.inl (h ▸ List.mem_cons_self _ _)
          · exact Or.inr (List.mem_append_right _ h)
    · intro n hn hne'
      rcases List.mem_cons.mp hn with hn | hn
      · subst hn
        exact walkAdd_isSome tax lang cScore n expanded
      · have := hsome n hn hne'
        rw [Option.isSome_iff_exists] at this
        obtain ⟨w, hw⟩ := this
        rw [walkAdd_some tax lang cScore pid expanded n w hw]
        rfl
    · refine hr.mono ?_
      intro x hx
      rcases List.mem_append.mp hx with hx | hx
      · rcases List.mem_cons.mp hx with hx | hx
        · exact List.mem_append_right _ (hx ▸ List.mem_cons_self _ _)
        · exact List.mem_append_left _ (List.mem_append_right _ hx)
      · exact List.mem_append_right _ (List.mem_cons_of_mem _ hx)

/-- The whole expansion fold preserves map entries (in particular every
original candidate's entry). -/
theorem expandFold_preserves (tax : Taxonomy) (lang : String) :
    ∀ (l : List TaxonomyCandidate) (m : List (String × TaxonomyCandidate))
      (k : String) (v : TaxonomyCandidate), alookup m k = some v →
      alookup (l.foldl (fun m c =>
        expandWalk tax lang c.score [] (get_parent_ids tax c.category_id).reverse m) m)
        k = some v := by
  intro l
  induction l with
  | nil => intro m k v h; exact h
  | cons c rest ih =>
    intro m k v h
    exact ih _ k v (expandWalk_preserves tax lang c.score k v [] _ m h)

/-- Every entry of the expanded map is an original entry or a decayed
parent candidate of one of the walked candidates. -/
theorem expandFold_origin (tax : Taxonomy) (lang : String) :
    ∀ (l : List TaxonomyCandidate) (m : List (String × TaxonomyCandidate))
      (k : String) (v : TaxonomyCandidate),
      alookup (l.foldl (fun m c =>
        expandWalk tax lang c.score [] (get_parent_ids tax c.category_id).reverse m) m)
        k = some v →
      alookup m k = some v ∨ ∃ c ∈ l, v = mkParentCand tax lang k c.score := by
  intro l
  induction l with
  | nil => intro m k v h; exact Or.inl h
  | cons c rest ih =>
    intro m k v h
    rcases ih _ k v h with h' | h'
    · cases hm : alookup m k with
      | some w =>
        have hpres := expandWalk_preserves tax lang c.score k w []
          (get_parent_ids tax c.category_id).reverse m hm
        injection (hpres.symm.trans h') with hwv
        exact Or.inl (congrArg some hwv)
      | none =>
        have := expandWalk_added_shape tax lang c.score k v []
          (get_parent_ids tax c.category_id).reverse m hm h'
        exact Or.inr ⟨c, List.mem_cons_self _ _, this⟩
    · obtain ⟨c', hc', hv⟩ := h'
      exact Or.inr ⟨c', List.mem_cons_of_mem _ hc', hv⟩

/-- Every non-blank ancestor of every candidate becomes a key of the
expanded map. -/
theorem expandFold_complete (tax : Taxonomy) (lang : String) :
    ∀ (l : List TaxonomyCandidate) (m : List (String × TaxonomyCandidate)),
      ∀ c ∈ l, ∀ a, ReachFrom tax (get_parent_ids tax c.category_id) a → a ≠ "" →
      (alookup (l.foldl (fun m c =>
        expandWalk tax lang c.score [] (get_parent_ids tax c.category_id).reverse m) m)
        a).isSome := by
  intro l
  induction l with
  | nil => intro m c hc; cases hc
  | cons c0 rest ih =>
    intro m c hc a hr ha
    rcases List.mem_cons.mp hc with hc | hc
    · subst hc
      have hwalk : (alookup (expandWalk tax lang c.score []
          (get_parent_ids tax c.category_id).reverse m) a).isSome := by
        refine expandWalk_complete tax lang c.score [] _ m
          (by intro n hn; cases hn) (by intro n hn; cases hn) a ?_ ha
        refine hr.mono ?_
        intro x hx
        simpa using List.mem_reverse.mpr hx
      rw [Option.isSome_iff_exists] at hwalk
      obtain ⟨w, hw⟩ := hwalk
      have hpres := expandFold_preserves tax lang rest
        (expandWalk tax lang c.score [] (get_parent_ids tax c.category_id).reverse m)
        a w hw
      show (alookup (List.foldl
        (fun m c => expandWalk tax lang c.score [] (get_parent_ids tax c.category_id).reverse m)
        (expandWalk tax lang c.score [] (get_parent_ids tax c.category_id).reverse m)
        rest) a).isSome = true
      rw [hpres]
      rfl
    · exact ih _ c hc a hr ha

/-! Fixtures: a malformed cyclic parent region `a ↔ b` reachable from the
candidate `c`, and the chain taxonomy with a candidate on its leaf. -/

def cycTax8 : Taxonomy :=
  [("a", ⟨some [("en", "A")], some ["b"]⟩),
   ("b", ⟨some [("en", "B")], some ["a"]⟩),
   ("c", ⟨some [("en", "C")], some ["a"]⟩)]

def cCand8 : TaxonomyCandidate := ⟨"c", "C", 80, 0, ["a"]⟩

def bCand8 : TaxonomyCandidate := ⟨"B", "B", 90, 2, ["A"]⟩

/-- C8: ancestor expansion keeps every existing candidate entry untouched,
reaches the full parent chain of every candidate (visited-id tracking makes
the walk well-founded even over the cyclic region `a ↔ b`, on which the
fixture computes a complete answer), and every added ancestor carries the
decayed score `max(0, round(child_score × 0.85))` of a candidate it is an
ancestor of — so on the chain fixture (score 90) both ancestors get 76,
decayed once, not compounded. -/
theorem ancestor_expansion_spec :
    (∀ (tax : Taxonomy) (lang : String) (cands : List TaxonomyCandidate)
        (k : String) (v : TaxonomyCandidate),
        alookup (candInit cands) k = some v →
        alookup (expandCandidates tax lang cands) k = some v) ∧
    (∀ (tax : Taxonomy) (lang : String) (cands : List TaxonomyCandidate),
        ∀ c ∈ cands, ∀ a, ReachFrom tax (get_parent_ids tax c.category_id) a →
        a ≠ "" → (alookup (expandCandidates tax lang cands) a).isSome) ∧
    (∀ (tax : Taxonomy) (lang : String) (cands : List TaxonomyCandidate)
        (k : String) (v : TaxonomyCandidate),
        alookup (candInit cands) k = none →
        alookup (expandCandidates tax lang cands) k = some v →
        ∃ c ∈ cands, v = mkParentCand tax lang k c.score) ∧
    (expandCandidates cycTax8 "en" [cCand8]).map (fun e => (e.1, e.2.score)) =
      [("c", 80), ("a", 68), ("b", 68)] ∧
    (expandCandidates chainTax "en" [bCand8]).map (fun e => (e.1, e.2.score)) =
      [("B", 90), ("A", 76), ("root", 76)] := by
  refine ⟨?_, ?_, ?_, ?_, ?_⟩
  case refine_4 =>
    simp +decide [expandCandidates, candInit, expandWalk, walkAdd, mkParentCand,
      scoreDecay, roundHalfEvenDiv, get_parent_ids, iterParents, taxGet, alookup,
      aset, cycTax8, cCand8]
  case refine_5 =>
    simp +decide [expandCandidates, candInit, expandWalk, walkAdd, mkParentCand,
      scoreDecay, roundHalfEvenDiv, get_parent_ids, iterParents, taxGet, alookup,
      aset, chainTax, bCand8]
  · intro tax lang cands k v h
    exact expandFold_preserves tax lang cands (candInit cands) k v h
  · intro tax lang cands c hc a hr ha
    exact expandFold_complete tax lang cands (candInit cands) c hc a hr ha
  · intro tax lang cands k v h0 h1
    rcases expandFold_origin tax lang cands (candInit cands) k v h1 with h | h
    · rw [h] at h0
      cases h0
    · exact h

/-- Witness: `ancestor_expansion_spec` applied to the cyclic fixture —
the original `c` entry survives, the across-the-cycle ancestor `b` is
reached, and the added `a` entry is the decayed parent candidate. -/
theorem ancestor_expansion_spec_witness :
    alookup (expandCandidates cycTax8 "en" [cCand8]) "c" = some cCand8 ∧
    (alookup (expandCandidates cycTax8 "en" [cCand8]) "b").isSome ∧
    (∃ c ∈ [cCand8], mkParentCand cycTax8 "en" "a" 80 =
      mkParentCand cycTax8 "en" "a" c.score) := by
  refine ⟨ancestor_expansion_spec.1 cycTax8 "en" [cCand8] "c" cCand8 (by decide),
    ancestor_expansion_spec.2.1 cycTax8 "en" [cCand8] cCand8 (by decide) "b" ?_
      (by decide),
    ancestor_expansion_spec.2.2.1 cycTax8 "en" [cCand8] "a"
      (mkParentCand cycTax8 "en" "a" 80) (by decide) ?_⟩
  · refine @ReachFrom.step cycTax8 (get_parent_ids cycTax8 cCand8.category_id)
      "a" "b" (ReachFrom.base ?_) (by decide) ?_
    · show "a" ∈ get_parent_ids cycTax8 cCand8.category_id
      decide
    · show "b" ∈ get_parent_ids cycTax8 "a"
      decide
  · simp +decide [expandCandidates, candInit, expandWalk, walkAdd,
      get_parent_ids, iterParents, taxGet, alookup, aset, cycTax8, cCand8]

end Reflux
